import Mathlib

/-!
A verification development for the Sokoban state-space search engine:
the heuristic library (`search_methods/heuristics.py`), the iterative-deepening
solver (`search_methods/ida_star.py`) and the simulated-annealing solver
(`search_methods/simulated_annealing.py`).  The board-state collaborator
(`sokoban.map.Map`) is external to the given sources and is modelled from the
specification; everything else is translated from the Python sources.
Python floats are modelled by rationals (and by `WithTop ℚ` where a value can
become `float('inf')`), fallible operations return `Option`, and the global
random stream is determinized as an oracle of choice indices and draws.
-/

namespace Sokoban

abbrev Pos := ℤ × ℤ

inductive Move where
  | up
  | down
  | left
  | right
deriving DecidableEq, Repr, Inhabited

/-- Modelled from the spec: the Board State collaborator `sokoban.map.Map` is not
part of the given sources; per spec sections 3 and 6 it aggregates grid
dimensions, the obstacle and target sets, the box positions, the agent position
and a states-explored counter. -/
structure GameMap where
  length : ℤ
  width : ℤ
  obstacles : List Pos
  targets : List Pos
  boxes : List Pos
  player : Pos
  explored_states : ℕ
deriving DecidableEq, Repr

instance : Inhabited GameMap := ⟨⟨0, 0, [], [], [], (0, 0), 0⟩⟩

/-- Modelled from the spec: moves are the four unit directions (spec section 3). -/
def moveDelta : Move → Pos
  | Move.up => (0, 1)
  | Move.down => (0, -1)
  | Move.left => (-1, 0)
  | Move.right => (1, 0)

/-- Modelled from the spec: every position referenced lies within the bounded
grid of dimensions length times width (spec section 3). -/
def inBounds (m : GameMap) (p : Pos) : Prop :=
  0 ≤ p.1 ∧ p.1 < m.length ∧ 0 ≤ p.2 ∧ p.2 < m.width

instance (m : GameMap) (p : Pos) : Decidable (inBounds m p) := by
  unfold inBounds; infer_instance

/-- Modelled from the spec: `apply_move` either translates the agent by one cell
if the destination is free, or pushes an adjacent box one cell further in the
same direction if that push is unobstructed, and otherwise fails with an
illegal-move error (spec sections 3 and 6); failure is rendered as `none`. -/
def applyMove (m : GameMap) (mv : Move) : Option GameMap :=
  let d := moveDelta mv
  let dest : Pos := (m.player.1 + d.1, m.player.2 + d.2)
  if dest ∈ m.boxes then
    let beyond : Pos := (dest.1 + d.1, dest.2 + d.2)
    if inBounds m beyond ∧ beyond ∉ m.obstacles ∧ beyond ∉ m.boxes then
      some { m with boxes := m.boxes.map fun b => if b = dest then beyond else b
                    player := dest }
    else none
  else if inBounds m dest ∧ dest ∉ m.obstacles then
    some { m with player := dest }
  else none

/-- Modelled from the spec: a state is a goal exactly when every box position
lies in the target set (spec section 3). -/
def isSolved (m : GameMap) : Prop := ∀ b ∈ m.boxes, b ∈ m.targets

instance (m : GameMap) : Decidable (isSolved m) := List.decidableBAll _ _

def allMoves : List Move := [Move.up, Move.down, Move.left, Move.right]

/-- Modelled from the spec: `filter_possible_moves` returns, in a fixed
deterministic order, all moves that are currently legal (spec section 6). -/
def filterPossibleMoves (m : GameMap) : List Move :=
  allMoves.filter fun mv => (applyMove m mv).isSome

/-- Modelled from the spec: the canonical identity `str(state)` is a stable,
collision-resistant encoding of the agent position plus the box positions
(spec section 6). -/
abbrev Canon := Pos × List Pos

def canon (m : GameMap) : Canon := (m.player, m.boxes)

/-- Replaying a move sequence from a state, one `apply_move` at a time;
`none` records that some move raised an illegal-move error. -/
def replayMoves : GameMap → List Move → Option GameMap
  | st, [] => some st
  | st, mv :: rest =>
    match applyMove st mv with
    | none => none
    | some st2 => replayMoves st2 rest

/-! ### The heuristic library, translated from `search_methods/heuristics.py` -/

/-- From `heuristics.py`: `manhattan_distance`. -/
def manhattan_distance (x1 y1 x2 y2 : ℤ) : ℤ := |x1 - x2| + |y1 - y2|

/-- From `heuristics.py`: the reachable (positional-tuple) `blocks_other_boxes`. -/
def blocks_other_boxes (state : GameMap) (box_pos : Pos) : Prop :=
  ∃ other ∈ state.boxes, other ≠ box_pos ∧
    ((|box_pos.1 - other.1| = 1 ∧ box_pos.2 = other.2) ∨
     (|box_pos.2 - other.2| = 1 ∧ box_pos.1 = other.1))

instance (state : GameMap) (p : Pos) : Decidable (blocks_other_boxes state p) :=
  List.decidableBEx _ _

/-- From `heuristics.py`: `is_tunnel`. -/
def is_tunnel (state : GameMap) (x y : ℤ) : Prop :=
  ((x, y - 1) ∈ state.obstacles ∧ (x, y + 1) ∈ state.obstacles) ∧
  ((x - 1, y) ∈ state.obstacles ∧ (x + 1, y) ∈ state.obstacles)

instance (state : GameMap) (x y : ℤ) : Decidable (is_tunnel state x y) := by
  unfold is_tunnel; infer_instance

/-- From `heuristics.py`: `is_deadlock`. -/
def is_deadlock (state : GameMap) (x y : ℤ) : Prop :=
  ((x = 0 ∨ x = state.length - 1) ∧ (y = 0 ∨ y = state.width - 1)) ∨
  ((((x - 1, y) ∈ state.obstacles) ∨ ((x + 1, y) ∈ state.obstacles)) ∧
   (((x, y - 1) ∈ state.obstacles) ∨ ((x, y + 1) ∈ state.obstacles)))

instance (state : GameMap) (x y : ℤ) : Decidable (is_deadlock state x y) := by
  unfold is_deadlock; infer_instance

/-- Python's `min(l, key=f)` on a list: the first element attaining the
minimal key wins; `min` of an empty list raises, rendered as `none`. -/
def pyMinBy {α : Type} (f : α → ℤ) : List α → Option α
  | [] => none
  | t :: ts => some (ts.foldl (fun best x => if f x < f best then x else best) t)

/-- The boxes not currently sitting on a target, in box-collection order. -/
def unplacedBoxes (state : GameMap) : List Pos :=
  state.boxes.filter fun b => b ∉ state.targets

/-- From `heuristics.py`: the corner test inside `matching_heuristic`. -/
def matchingCorner (state : GameMap) (bx by' : ℤ) : Prop :=
  ((bx - 1, by') ∈ state.obstacles ∧ (bx, by' - 1) ∈ state.obstacles) ∨
  ((bx - 1, by') ∈ state.obstacles ∧ (bx, by' + 1) ∈ state.obstacles) ∨
  ((bx + 1, by') ∈ state.obstacles ∧ (bx, by' - 1) ∈ state.obstacles) ∨
  ((bx + 1, by') ∈ state.obstacles ∧ (bx, by' + 1) ∈ state.obstacles)

instance (state : GameMap) (bx by' : ℤ) : Decidable (matchingCorner state bx by') := by
  unfold matchingCorner; infer_instance

/-- The per-box loop of `matching_heuristic`: pick the nearest target still in
the pool (`min` raises on an empty pool, rendered as `none`), remove it from
the pool, and add the distance plus the simple corner penalty. -/
def matchingGo (state : GameMap) : List Pos → List Pos → ℚ → Option ℚ
  | [], _, total => some total
  | b :: bs, targets, total =>
    match pyMinBy (fun t => manhattan_distance b.1 b.2 t.1 t.2) targets with
    | none => none
    | some best =>
      let dist : ℚ := (manhattan_distance b.1 b.2 best.1 best.2 : ℤ)
      let total := total + dist
      let total := if matchingCorner state b.1 b.2 then total + 1000 else total
      matchingGo state bs (targets.erase best) total

/-- From `heuristics.py`: `matching_heuristic`; `none` records the `ValueError`
raised by `min` over an exhausted target pool. -/
def matching_heuristic (state : GameMap) : Option ℚ :=
  let boxes := unplacedBoxes state
  if boxes = [] then some 0
  else matchingGo state boxes state.targets 0

/-- From `heuristics.py`: the pairwise maximum Manhattan spread among the
unplaced boxes used by `ida_star_heuristic` (0 when fewer than two boxes). -/
def maxSpread : List Pos → ℤ
  | [] => 0
  | b :: bs =>
    max (bs.foldl (fun acc c => max acc (manhattan_distance b.1 b.2 c.1 c.2)) 0)
      (maxSpread bs)

/-- The nearest-target Manhattan distance of a box, `float('inf')` when the
target set is empty, as computed by the inner loops of `simple_heuristic`
and `ida_star_heuristic`. -/
def minTargetDistance (state : GameMap) (b : Pos) : WithTop ℚ :=
  state.targets.foldl
    (fun md t => min md ((manhattan_distance b.1 b.2 t.1 t.2 : ℤ) : ℚ)) ⊤

/-- From `heuristics.py`: the per-box accumulation step of `ida_star_heuristic`,
threading the running total, the minimal agent-to-box distance and the list of
unplaced boxes. -/
def idaBoxStep (state : GameMap) (acc : WithTop ℚ × WithTop ℚ × List Pos) (box : Pos) :
    WithTop ℚ × WithTop ℚ × List Pos :=
  let total := acc.1
  let pcost := acc.2.1
  let unplaced := acc.2.2
  if box ∈ state.targets then
    (if blocks_other_boxes state box then total else total + ((-30 : ℚ) : WithTop ℚ),
     pcost, unplaced)
  else
    let total := total + minTargetDistance state box * 2
    let total := if is_deadlock state box.1 box.2 then total + (1000 : ℚ) else total
    let total := if is_tunnel state box.1 box.2 ∧ box ∉ state.targets then
        total + (50 : ℚ) else total
    let total := if blocks_other_boxes state box then total + (100 : ℚ) else total
    let pd : ℚ := (manhattan_distance state.player.1 state.player.2 box.1 box.2 : ℤ)
    (total, min pcost (pd : WithTop ℚ), unplaced ++ [box])

/-- From `heuristics.py`: `ida_star_heuristic`. -/
def ida_star_heuristic (state : GameMap) : WithTop ℚ :=
  let acc := state.boxes.foldl (idaBoxStep state) (0, ⊤, [])
  let total := acc.1
  let pcost := acc.2.1
  let unplaced := acc.2.2
  let total := if unplaced ≠ [] then total + pcost else total
  let total := if 2 ≤ unplaced.length then total + ((maxSpread unplaced : ℤ) : ℚ) * 2
    else total
  total

/-- The per-box loop of `target_matching_heuristic`: first-minimum scan of the
unmatched target pool (skipped silently when the pool is empty), removal of the
matched target, and the deadlock, tunnel and blocking penalties. -/
def tmGo (state : GameMap) : List Pos → List Pos → ℚ → ℚ
  | [], _, total => total
  | b :: bs, unmatched, total =>
    match pyMinBy (fun t => manhattan_distance b.1 b.2 t.1 t.2) unmatched with
    | none =>
      let total := if is_deadlock state b.1 b.2 then total + 1500 else total
      let total := if is_tunnel state b.1 b.2 ∧ b ∉ state.targets then total + 80
        else total
      let total := if blocks_other_boxes state b then total + 150 else total
      tmGo state bs unmatched total
    | some best =>
      let total := total + ((manhattan_distance b.1 b.2 best.1 best.2 : ℤ) : ℚ) * (5 / 2)
      let unmatched := unmatched.erase best
      let total := if is_deadlock state b.1 b.2 then total + 1500 else total
      let total := if is_tunnel state b.1 b.2 ∧ b ∉ state.targets then total + 80
        else total
      let total := if blocks_other_boxes state b then total + 150 else total
      tmGo state bs unmatched total

/-- From `heuristics.py`: `target_matching_heuristic`; the `set(targets)` pool
is modelled as the deduplicated target list iterated in list order. -/
def target_matching_heuristic (state : GameMap) : ℚ :=
  let boxes := unplacedBoxes state
  let total := tmGo state boxes state.targets.dedup 0
  let total :=
    match boxes with
    | [] => total
    | b :: bs =>
      total + ((bs.foldl
        (fun acc c => min acc (manhattan_distance state.player.1 state.player.2 c.1 c.2))
        (manhattan_distance state.player.1 state.player.2 b.1 b.2) : ℤ) : ℚ)
  total + (state.explored_states : ℚ) * (1 / 10)

/-- From `heuristics.py`: `simple_heuristic`. -/
def simple_heuristic (state : GameMap) : WithTop ℚ :=
  state.boxes.foldl
    (fun total b =>
      if b ∈ state.targets then total
      else
        let total := total + minTargetDistance state b
        if is_deadlock state b.1 b.2 then total + (1000 : ℚ) else total)
    0

/-! ### The IDA* solver, translated from `search_methods/ida_star.py` -/

/-- The parent map `self.parent`, in insertion order: each entry maps the
canonical identity of a discovered successor to the canonical identity of its
parent together with the move that produced it. -/
abbrev ParentMap := List (Canon × Canon × Move)

def lookupParent (parent : ParentMap) (c : Canon) : Option (Canon × Move) :=
  match parent.find? (fun e => e.1 == c) with
  | none => none
  | some e => some e.2

/-- The backward walk of `_reconstruct_path`: collect moves from a canonical
identity up to the initial identity, in reverse order; `none` records a
`KeyError` or a walk that outruns its fuel. -/
def chaseParent (parent : ParentMap) (initC : Canon) : ℕ → Canon → Option (List Move)
  | 0, _ => none
  | fuel + 1, c =>
    if c = initC then some []
    else
      match lookupParent parent c with
      | none => none
      | some (p, mv) =>
        match chaseParent parent initC fuel p with
        | none => none
        | some ws => some (mv :: ws)

/-- From `ida_star.py`: `_reconstruct_path` (the collected moves, reversed). -/
def reconstructPath (parent : ParentMap) (initC : Canon) (c : Canon) : Option (List Move) :=
  (chaseParent parent initC (parent.length + 1) c).map List.reverse

/-- The result of `_depth_first`: either a reconstructed move list or a numeric
bound (`WithTop ℚ`, with top standing for `float('inf')`). -/
abbrev DfsRes := List Move ⊕ WithTop ℚ

/-- The successor loop of `_depth_first` over the remaining legal moves,
parameterized by the recursive call `rec`; threading the parent map and the
running minimum pruned cost.  `none` records fuel exhaustion below (or an
unreachable illegal move in the legal-move list). -/
def dfsGo (rec : GameMap → ℚ → ParentMap → Option (DfsRes × ParentMap))
    (state : GameMap) (g : ℚ) :
    List Move → ParentMap → WithTop ℚ → Option (DfsRes × ParentMap)
  | [], parent, minCost => some (Sum.inr minCost, parent)
  | mv :: rest, parent, minCost =>
    match applyMove state mv with
    | none => none
    | some next =>
      if (lookupParent parent (canon next)).isSome then
        dfsGo rec state g rest parent minCost
      else
        let parent1 := parent ++ [(canon next, (canon state, mv))]
        match rec next (g + 1) parent1 with
        | none => none
        | some (Sum.inl w, parent2) => some (Sum.inl w, parent2)
        | some (Sum.inr v, parent2) => dfsGo rec state g rest parent2 (min minCost v)

/-- From `ida_star.py`: `_depth_first`, with explicit fuel for the recursion
depth and the parent map threaded as state. -/
def depthFirst (h : GameMap → ℚ) (initC : Canon) (lim : ℚ) :
    ℕ → GameMap → ℚ → ParentMap → Option (DfsRes × ParentMap)
  | 0, _, _, _ => none
  | fuel + 1, state, g, parent =>
    let f := g + h state
    if lim < f then some (Sum.inr ((f : ℚ) : WithTop ℚ), parent)
    else if isSolved state then
      match reconstructPath parent initC (canon state) with
      | none => none
      | some w => some (Sum.inl w, parent)
    else
      dfsGo (fun st gg par => depthFirst h initC lim fuel st gg par) state g
        (filterPossibleMoves state) parent ⊤

/-- The new limit proposed by one outer iteration of `solve`, if the iteration
neither finds a solution nor exhausts every branch. -/
def idaNext (h : GameMap → ℚ) (fd : ℕ) (init : GameMap) (lim : ℚ) : Option ℚ :=
  match depthFirst h (canon init) lim fd init 0 [] with
  | some (Sum.inr v, _) => if v = ⊤ then none else some (v.untop' 0)
  | _ => none

/-- From `ida_star.py`: the outer `while limit < 10000` loop of `solve`; the
parent map is cleared at the start of every iteration. -/
def idaLoop (h : GameMap → ℚ) (fd : ℕ) (init : GameMap) : ℕ → ℚ → Option (List Move)
  | 0, _ => none
  | fo + 1, lim =>
    if lim < 10000 then
      match depthFirst h (canon init) lim fd init 0 [] with
      | none => none
      | some (Sum.inl w, _) => some w
      | some (Sum.inr v, _) =>
        if v = ⊤ then some []
        else idaLoop h fd init fo (v.untop' 0)
    else some []

/-- From `ida_star.py`: `IDAStarSolver.solve`, starting from
`limit = heuristic(initial_state)`. -/
def idaSolve (h : GameMap → ℚ) (fo fd : ℕ) (init : GameMap) : Option (List Move) :=
  idaLoop h fd init fo (h init)

/-! ### The simulated-annealing solver, translated from
`search_methods/simulated_annealing.py` -/

/-- The global random stream, determinized: call number `n` of
`random.choice` reads `pick n` (reduced modulo the list length) and call
number `n` of `random.random()` reads `draw n`. -/
structure Rng where
  pick : ℕ → ℕ
  draw : ℕ → ℝ

/-- Python's `random.choice` on a nonempty list, at stream position `n`. -/
def rngChoice (rng : Rng) (n : ℕ) (l : List Move) : Move :=
  l.getD (rng.pick n % l.length) Move.up

/-- Python's `int()` conversion of a float: truncation toward zero. -/
def pyInt (q : ℚ) : ℤ := if 0 ≤ q then ⌊q⌋ else ⌈q⌉

/-- From `simulated_annealing.py`: the Metropolis acceptance chance,
`math.exp(-delta / temp) if delta > 0 else 1.0`. -/
noncomputable def acceptChance (delta temp : ℚ) : ℝ :=
  if 0 < delta then Real.exp (-(delta : ℝ) / (temp : ℝ)) else 1

/-- From `simulated_annealing.py`: `_validate_solution`, replaying a move
sequence from a fresh copy of the initial state; an illegal move makes the
sequence invalid, otherwise validity is the goal test on the final state. -/
def validateSolution (initial : GameMap) (moves : List Move) : Bool :=
  match replayMoves initial moves with
  | none => false
  | some st => decide (isSolved st)

/-- From `simulated_annealing.py`: `_perturb_initial_state`, a random walk of
the given number of moves, stopping silently when no legal move exists; the
second component is the advanced random-stream position. -/
def perturbInitialState (rng : Rng) : ℕ → GameMap → ℕ → GameMap × ℕ
  | 0, state, n => (state, n)
  | k + 1, state, n =>
    let legal := filterPossibleMoves state
    if legal = [] then (state, n)
    else
      let mv := rngChoice rng n legal
      perturbInitialState rng k ((applyMove state mv).getD state) (n + 1)

/-- The outcome of one annealing run: either a validated answer returned from
inside the loop, or the end-of-run best score and best sequence. -/
inductive SAInner where
  | answer (w : List Move)
  | runEnd (bestScore : ℚ) (bestSeq : List Move)
deriving DecidableEq, Repr

open Classical in
/-- From `simulated_annealing.py`: the inner annealing loop of `solve`.  The
fuel counts the remaining steps out of `max_steps = 100000`; the temperature
cools by `0.995` per step and the loop stops below `end_temp = 0.1`.  Each
iteration consumes stream position `n` for the move choice and `n + 1` for the
acceptance draw. -/
noncomputable def saInner (h : GameMap → ℚ) (initial : GameMap) (rng : Rng) :
    ℕ → ℚ → GameMap → ℚ → List Move → ℚ → List Move → ℕ → SAInner × ℕ
  | 0, _, _, _, _, bestScore, bestSeq, n => (SAInner.runEnd bestScore bestSeq, n)
  | fuel + 1, temp, state, score, movesSoFar, bestScore, bestSeq, n =>
    if ¬ (1 / 10 < temp) then (SAInner.runEnd bestScore bestSeq, n)
    else if isSolved state then
      if validateSolution initial movesSoFar then (SAInner.answer movesSoFar, n)
      else (SAInner.runEnd bestScore bestSeq, n)
    else
      let legal := filterPossibleMoves state
      if legal = [] then (SAInner.runEnd bestScore bestSeq, n)
      else
        let mv := rngChoice rng n legal
        let newState := (applyMove state mv).getD state
        let newScore := h newState
        let delta := newScore - score
        if rng.draw (n + 1) < acceptChance delta temp then
          let moves2 := movesSoFar ++ [mv]
          let best2 : ℚ × List Move :=
            if newScore < bestScore then (newScore, moves2) else (bestScore, bestSeq)
          saInner h initial rng fuel (temp * (199 / 200)) newState newScore moves2
            best2.1 best2.2 (n + 2)
        else
          saInner h initial rng fuel (temp * (199 / 200)) state score movesSoFar
            bestScore bestSeq (n + 2)

/-- From `simulated_annealing.py`: the number of perturbation moves chosen at
the start of a restart: 5 while `last_best_score` is infinite, otherwise
`min(10, max(3, int(last_best_score)))`. -/
def perturbCount (lastBest : WithTop ℚ) : ℕ :=
  if lastBest = ⊤ then 5
  else (min 10 (max 3 (pyInt (lastBest.untop' 0)))).toNat

/-- From `simulated_annealing.py`: the unbounded restart loop of `solve`,
given fuel for the number of restarts; threads `last_best_score`, the overall
best sequence and the random-stream position. -/
noncomputable def saLoop (h : GameMap → ℚ) (initial : GameMap) (rng : Rng) :
    ℕ → WithTop ℚ → List Move → ℕ → Option (List Move)
  | 0, _, _, _ => none
  | r + 1, lastBest, overallBest, n =>
    let res0 := perturbInitialState rng (perturbCount lastBest) initial n
    let state := res0.1
    let score := h state
    let res := saInner h initial rng 100000 1000 state score [] score [] res0.2
    match res.1 with
    | SAInner.answer w => some w
    | SAInner.runEnd bestScore bestSeq =>
      let overall2 :=
        if overallBest = [] ∨ (bestSeq ≠ [] ∧ bestSeq.length < overallBest.length) then
          (if validateSolution initial bestSeq then bestSeq else overallBest)
        else overallBest
      if overall2 ≠ [] then some overall2
      else saLoop h initial rng r ((bestScore : ℚ) : WithTop ℚ) overall2 res.2

/-- From `simulated_annealing.py`: `SimulatedAnnealingSolver.solve`, with
`last_best_score` starting at `float('inf')` and no overall best sequence. -/
noncomputable def saSolve (h : GameMap → ℚ) (rng : Rng) (restarts : ℕ)
    (initial : GameMap) : Option (List Move) :=
  saLoop h initial rng restarts ⊤ [] 0

/-! ### Heuristics on solved states (claim C5) -/

lemma unplacedBoxes_eq_nil {s : GameMap} (hs : isSolved s) : unplacedBoxes s = [] := by
  unfold unplacedBoxes
  rw [List.filter_eq_nil_iff]
  intro b hb
  simp only [decide_eq_true_eq, Decidable.not_not]
  exact hs b hb

lemma foldl_fixed {α β : Type} (f : β → α → β) (l : List α) (t : β)
    (h : ∀ b ∈ l, ∀ acc, f acc b = acc) : l.foldl f t = t := by
  induction l generalizing t with
  | nil => rfl
  | cons b bs ih =>
    simp only [List.foldl_cons]
    rw [h b (by simp)]
    exact ih t fun x hx => h x (by simp [hx])

lemma simple_heuristic_solved {s : GameMap} (hs : isSolved s) :
    simple_heuristic s = 0 := by
  unfold simple_heuristic
  exact foldl_fixed _ _ _ fun b hb acc => by simp [hs b hb]

lemma matching_heuristic_solved {s : GameMap} (hs : isSolved s) :
    matching_heuristic s = some 0 := by
  unfold matching_heuristic
  simp [unplacedBoxes_eq_nil hs]

lemma idaBoxStep_solved {s : GameMap} {b : Pos} (hb : b ∈ s.targets)
    (t p : WithTop ℚ) (ht : t ≤ 0) :
    (idaBoxStep s (t, p, []) b).1 ≤ 0 ∧ (idaBoxStep s (t, p, []) b).2.2 = [] := by
  simp only [idaBoxStep]
  rw [if_pos hb]
  refine ⟨?_, rfl⟩
  by_cases hblk : blocks_other_boxes s b
  · rw [if_pos hblk]; exact ht
  · rw [if_neg hblk]
    have h30 : ((-30 : ℚ) : WithTop ℚ) ≤ 0 := by
      simpa using WithTop.coe_le_coe.mpr (by norm_num : (-30 : ℚ) ≤ 0)
    calc t + ((-30 : ℚ) : WithTop ℚ) ≤ 0 + ((-30 : ℚ) : WithTop ℚ) :=
          add_le_add_right ht _
      _ = ((-30 : ℚ) : WithTop ℚ) := zero_add _
      _ ≤ 0 := h30

lemma idaFold_solved {s : GameMap} (l : List Pos) (hl : ∀ b ∈ l, b ∈ s.targets) :
    ∀ (t p : WithTop ℚ), t ≤ 0 →
      (l.foldl (idaBoxStep s) (t, p, [])).1 ≤ 0 ∧
      (l.foldl (idaBoxStep s) (t, p, [])).2.2 = [] := by
  induction l with
  | nil => intro t p ht; exact ⟨ht, rfl⟩
  | cons b bs ih =>
    intro t p ht
    have hb := hl b (by simp)
    have step := idaBoxStep_solved hb t p ht
    simp only [List.foldl_cons]
    have : idaBoxStep s (t, p, []) b =
        ((idaBoxStep s (t, p, []) b).1, (idaBoxStep s (t, p, []) b).2.1, []) := by
      rcases step with ⟨_, h2⟩
      exact Prod.ext rfl (Prod.ext rfl h2)
    rw [this]
    exact ih (fun x hx => hl x (by simp [hx])) _ _ step.1

lemma ida_star_heuristic_solved {s : GameMap} (hs : isSolved s) :
    ida_star_heuristic s ≤ 0 := by
  unfold ida_star_heuristic
  have h := idaFold_solved s.boxes (fun b hb => hs b hb) 0 ⊤ le_rfl
  simp only [h.2, ne_eq, not_true_eq_false, if_false, List.length_nil]
  norm_num
  exact h.1

lemma target_matching_heuristic_solved {s : GameMap} (hs : isSolved s) :
    target_matching_heuristic s = (s.explored_states : ℚ) * (1 / 10) := by
  unfold target_matching_heuristic
  simp [unplacedBoxes_eq_nil hs, tmGo]

/-- C5 (amended): on a board already in goal configuration, `simple_heuristic`
returns 0, `matching_heuristic` returns 0, and `ida_star_heuristic` returns a
value that is at most 0 (only the negative already-placed bonuses contribute);
`target_matching_heuristic`, however, returns `0.1 * explored_states`, which is
nonpositive only when the explored-states counter is zero. -/
theorem c5_heuristics_on_solved (s : GameMap) (hs : isSolved s) :
    simple_heuristic s = 0 ∧ matching_heuristic s = some 0 ∧
    ida_star_heuristic s ≤ 0 ∧
    target_matching_heuristic s = (s.explored_states : ℚ) * (1 / 10) :=
  ⟨simple_heuristic_solved hs, matching_heuristic_solved hs,
    ida_star_heuristic_solved hs, target_matching_heuristic_solved hs⟩

def c5Map : GameMap :=
  { length := 3, width := 3, obstacles := [], targets := [(1, 1)],
    boxes := [(1, 1)], player := (0, 0), explored_states := 10 }

/-- C5 (counterexample): a solved board whose explored-states counter is 10
makes `target_matching_heuristic` return 1, which is not at most 0, refuting
the claim that every heuristic returns a value at most 0 on solved boards. -/
theorem c5_counterexample :
    isSolved c5Map ∧ ¬ target_matching_heuristic c5Map ≤ 0 := by
  constructor
  · decide
  · norm_num [target_matching_heuristic, c5Map, unplacedBoxes, tmGo]

/-- C5 (witness): the amended statement evaluated on a concrete solved board. -/
theorem c5_witness :
    isSolved c5Map ∧
      target_matching_heuristic c5Map = (c5Map.explored_states : ℚ) * (1 / 10) :=
  ⟨by decide, (c5_heuristics_on_solved c5Map (by decide)).2.2.2⟩

/-! ### The greedy matching pool (claims C8 and C9) -/

lemma pyMinBy_mem {α : Type} (f : α → ℤ) :
    ∀ (l : List α) (x : α), pyMinBy f l = some x → x ∈ l := by
  have aux : ∀ (ts : List α) (t : α),
      ts.foldl (fun best x => if f x < f best then x else best) t ∈ t :: ts := by
    intro ts
    induction ts with
    | nil => intro t; simp
    | cons a as ih =>
      intro t
      simp only [List.foldl_cons]
      by_cases hc : f a < f t
      · rw [if_pos hc]
        exact List.mem_cons_of_mem t (ih a)
      · rw [if_neg hc]
        rcases List.mem_cons.mp (ih t) with h | h
        · simp [h]
        · simp [h]
  intro l x hl
  cases l with
  | nil => simp [pyMinBy] at hl
  | cons t ts =>
    simp only [pyMinBy, Option.some.injEq] at hl
    rw [← hl]
    exact aux ts t

lemma pyMinBy_eq_none_iff {α : Type} (f : α → ℤ) (l : List α) :
    pyMinBy f l = none ↔ l = [] := by
  cases l <;> simp [pyMinBy]

lemma matchingGo_eq_none_iff (s : GameMap) :
    ∀ (bs ts : List Pos) (total : ℚ),
      matchingGo s bs ts total = none ↔ ts.length < bs.length := by
  intro bs
  induction bs with
  | nil => intro ts total; simp [matchingGo]
  | cons b bs ih =>
    intro ts total
    cases hmin : pyMinBy (fun t => manhattan_distance b.1 b.2 t.1 t.2) ts with
    | none =>
      rw [pyMinBy_eq_none_iff] at hmin
      subst hmin
      simp [matchingGo, pyMinBy]
    | some best =>
      have hmem := pyMinBy_mem _ _ _ hmin
      have hlen := List.length_erase_of_mem hmem
      have hpos : 0 < ts.length := List.length_pos_of_mem hmem
      simp only [matchingGo, hmin]
      rw [ih]
      rw [hlen]
      simp only [List.length_cons]
      omega

/-- C9 (confirmed): `matching_heuristic` raises (returns `none`) exactly when
the boxes not on a target outnumber the targets in the assignment pool, and
returns a finite value without error whenever the targets suffice. -/
theorem c9_matching_error_iff (s : GameMap) :
    matching_heuristic s = none ↔ s.targets.length < (unplacedBoxes s).length := by
  unfold matching_heuristic
  by_cases hb : unplacedBoxes s = []
  · simp [hb]
  · simp only [hb, if_neg, if_false]
    exact matchingGo_eq_none_iff s _ _ _

def c9Map : GameMap :=
  { length := 4, width := 4, obstacles := [], targets := [(3, 3)],
    boxes := [(1, 1), (2, 2)], player := (0, 0), explored_states := 0 }

/-- C9 (witness): a board with two unplaced boxes and a single target makes
`matching_heuristic` raise. -/
theorem c9_witness : matching_heuristic c9Map = none :=
  (c9_matching_error_iff c9Map).mpr (by decide)

/-- The targets matched, in order, by the per-box loop of
`matching_heuristic`: the same first-minimum pick and pool removal as
`matchingGo`, with the pool exhaustion cutting the assignment short. -/
def matchingPicks (_s : GameMap) : List Pos → List Pos → List Pos
  | [], _ => []
  | b :: bs, targets =>
    match pyMinBy (fun t => manhattan_distance b.1 b.2 t.1 t.2) targets with
    | none => []
    | some best => best :: matchingPicks _s bs (targets.erase best)

/-- The targets matched, in order, by the per-box loop of
`target_matching_heuristic`: the same first-minimum pick and pool removal as
`tmGo`, with an empty pool skipping the box. -/
def tmPicks (_s : GameMap) : List Pos → List Pos → List Pos
  | [], _ => []
  | b :: bs, unmatched =>
    match pyMinBy (fun t => manhattan_distance b.1 b.2 t.1 t.2) unmatched with
    | none => tmPicks _s bs unmatched
    | some best => best :: tmPicks _s bs (unmatched.erase best)

lemma matchingPicks_subset (s : GameMap) :
    ∀ (bs ts : List Pos) (x : Pos), x ∈ matchingPicks s bs ts → x ∈ ts := by
  intro bs
  induction bs with
  | nil => intro ts x hx; simp [matchingPicks] at hx
  | cons b bs ih =>
    intro ts x hx
    cases hmin : pyMinBy (fun t => manhattan_distance b.1 b.2 t.1 t.2) ts with
    | none => simp [matchingPicks, hmin] at hx
    | some best =>
      simp only [matchingPicks, hmin, List.mem_cons] at hx
      rcases hx with h | h
      · rw [h]; exact pyMinBy_mem _ _ _ hmin
      · exact List.mem_of_mem_erase (ih _ _ h)

lemma tmPicks_subset (s : GameMap) :
    ∀ (bs ts : List Pos) (x : Pos), x ∈ tmPicks s bs ts → x ∈ ts := by
  intro bs
  induction bs with
  | nil => intro ts x hx; simp [tmPicks] at hx
  | cons b bs ih =>
    intro ts x hx
    cases hmin : pyMinBy (fun t => manhattan_distance b.1 b.2 t.1 t.2) ts with
    | none =>
      simp only [tmPicks, hmin] at hx
      exact ih _ _ hx
    | some best =>
      simp only [tmPicks, hmin, List.mem_cons] at hx
      rcases hx with h | h
      · rw [h]; exact pyMinBy_mem _ _ _ hmin
      · exact List.mem_of_mem_erase (ih _ _ h)

lemma matchingPicks_nodup (s : GameMap) :
    ∀ (bs ts : List Pos), ts.Nodup → (matchingPicks s bs ts).Nodup := by
  intro bs
  induction bs with
  | nil => intro ts _; simp [matchingPicks]
  | cons b bs ih =>
    intro ts hts
    cases hmin : pyMinBy (fun t => manhattan_distance b.1 b.2 t.1 t.2) ts with
    | none => simp [matchingPicks, hmin]
    | some best =>
      simp only [matchingPicks, hmin]
      refine List.Nodup.cons ?_ (ih _ (hts.erase best))
      intro hb
      exact hts.not_mem_erase (matchingPicks_subset s bs _ best hb)

lemma tmPicks_nodup (s : GameMap) :
    ∀ (bs ts : List Pos), ts.Nodup → (tmPicks s bs ts).Nodup := by
  intro bs
  induction bs with
  | nil => intro ts _; simp [tmPicks]
  | cons b bs ih =>
    intro ts hts
    cases hmin : pyMinBy (fun t => manhattan_distance b.1 b.2 t.1 t.2) ts with
    | none =>
      simp only [tmPicks, hmin]
      exact ih _ hts
    | some best =>
      simp only [tmPicks, hmin]
      refine List.Nodup.cons ?_ (ih _ (hts.erase best))
      intro hb
      exact hts.not_mem_erase (tmPicks_subset s bs _ best hb)

/-- C8 (confirmed): within one evaluation of `matching_heuristic` or
`target_matching_heuristic` started on a duplicate-free target pool, no target
is ever assigned to two different boxes: the sequences of matched targets are
duplicate-free, because each matched target is erased from the pool before the
next box is processed. -/
theorem c8_no_double_assignment (s : GameMap) (bs ts : List Pos) (hts : ts.Nodup) :
    (matchingPicks s bs ts).Nodup ∧ (tmPicks s bs ts).Nodup :=
  ⟨matchingPicks_nodup s bs ts hts, tmPicks_nodup s bs ts hts⟩

/-- C8 (witness): the no-double-assignment property evaluated on a concrete
pool with two boxes nearest to the same target. -/
theorem c8_witness :
    (matchingPicks c9Map [(1, 1), (2, 2)] [(1, 2), (3, 3)]).Nodup ∧
      (tmPicks c9Map [(1, 1), (2, 2)] [(1, 2), (3, 3)]).Nodup :=
  c8_no_double_assignment c9Map [(1, 1), (2, 2)] [(1, 2), (3, 3)] (by decide)

/-! ### The perturbation count (claim C7) -/

lemma perturbInitialState_stuck (rng : Rng) (st : GameMap) (n : ℕ)
    (hst : filterPossibleMoves st = []) :
    ∀ k, perturbInitialState rng k st n = (st, n) := by
  intro k
  cases k with
  | zero => rfl
  | succ k => simp [perturbInitialState, hst]

/-- The perturbation count as the claim words it, with `round` in place of the
code's `int(...)` truncation. -/
def perturbCountClaim (lastBest : WithTop ℚ) : ℕ :=
  if lastBest = ⊤ then 5
  else (min 10 (max 3 (round (lastBest.untop' 0)))).toNat

/-- C7 (counterexample): with a previous best score of 4.9 the code truncates
to 4 perturbation moves, while the claim's `clamp(round(4.9), 3, 10)` is 5. -/
theorem c7_counterexample :
    perturbCount (((49 : ℚ) / 10 : ℚ) : WithTop ℚ) = 4 ∧
      perturbCountClaim (((49 : ℚ) / 10 : ℚ) : WithTop ℚ) = 5 := by
  constructor
  · simp only [perturbCount, pyInt]
    norm_num [WithTop.untop'_coe]
    decide
  · simp only [perturbCountClaim]
    norm_num [WithTop.untop'_coe, round_eq]
    decide

/-- C7 (amended): at the start of a restart the perturbation walk length is 5
when no previous restart's best score exists, and otherwise
`clamp(int(previous_best_score), 3, 10)` with Python's truncating `int()`;
when no legal move exists at some perturbation step, the remaining steps are
skipped silently, leaving the state and the random stream untouched. -/
theorem c7_perturbation_count :
    perturbCount ⊤ = 5 ∧
    (∀ q : ℚ, (perturbCount ((q : ℚ) : WithTop ℚ) : ℤ) = min 10 (max 3 (pyInt q))) ∧
    (∀ (rng : Rng) (st : GameMap) (n k : ℕ), filterPossibleMoves st = [] →
      perturbInitialState rng (k + 1) st n = (st, n)) := by
  refine ⟨rfl, ?_, ?_⟩
  · intro q
    simp only [perturbCount, WithTop.coe_ne_top, if_neg, if_false, WithTop.untop'_coe]
    have h3 : (3 : ℤ) ≤ min 10 (max 3 (pyInt q)) :=
      le_min (by norm_num) (le_max_left _ _)
    omega
  · intro rng st n k hst
    exact perturbInitialState_stuck rng st n hst (k + 1)

/-- C7 (witness): the amended count evaluated at a previous best score of 4.9
and at a stuck state. -/
theorem c7_witness :
    (perturbCount (((49 : ℚ) / 10 : ℚ) : WithTop ℚ) : ℤ) =
      min 10 (max 3 (pyInt ((49 : ℚ) / 10))) :=
  c7_perturbation_count.2.1 ((49 : ℚ) / 10)

/-! ### Metropolis acceptance (claim C6) -/

/-- C6 (confirmed): with `delta` the candidate score minus the current score
and a uniform draw in `[0, 1)`, the inner annealing step of
`SimulatedAnnealingSolver.solve` accepts the move for every draw when
`delta ≤ 0` (the acceptance chance is 1), and, when `delta > 0`, accepts
exactly when the draw is below `exp(-delta / temperature)`. -/
theorem c6_acceptance (delta temp : ℚ) (draw : ℝ) (_h0 : 0 ≤ draw) (h1 : draw < 1) :
    (delta ≤ 0 → draw < acceptChance delta temp) ∧
    (0 < delta →
      (draw < acceptChance delta temp ↔ draw < Real.exp (-(delta : ℝ) / (temp : ℝ)))) := by
  constructor
  · intro hd
    unfold acceptChance
    rw [if_neg (by exact_mod_cast not_lt.mpr hd)]
    exact h1
  · intro hd
    unfold acceptChance
    rw [if_pos hd]

/-- C6 (witness): acceptance evaluated at concrete parameters on both sides of
the `delta` sign split. -/
theorem c6_witness :
    ((1 : ℝ) / 2 < acceptChance (-1) 2) ∧
    ((1 : ℝ) / 2 < acceptChance 1 2 ↔ (1 : ℝ) / 2 < Real.exp (-(1 : ℝ) / 2)) := by
  constructor
  · exact (c6_acceptance (-1) 2 (1 / 2) (by norm_num) (by norm_num)).1 (by norm_num)
  · have h := (c6_acceptance 1 2 (1 / 2) (by norm_num) (by norm_num)).2 (by norm_num)
    simpa using h

/-! ### The depth-first numeric bound (claim C4) -/

lemma dfsGo_inr_gt {rec : GameMap → ℚ → ParentMap → Option (DfsRes × ParentMap)}
    {state : GameMap} {g lim : ℚ}
    (Hrec : ∀ st gg par v par2, rec st gg par = some (Sum.inr v, par2) →
      ((lim : ℚ) : WithTop ℚ) < v) :
    ∀ (moves : List Move) (parent : ParentMap) (minCost : WithTop ℚ),
      ((lim : ℚ) : WithTop ℚ) < minCost →
      ∀ v par2, dfsGo rec state g moves parent minCost = some (Sum.inr v, par2) →
        ((lim : ℚ) : WithTop ℚ) < v := by
  intro moves
  induction moves with
  | nil =>
    intro parent minCost hmc v par2 hres
    simp only [dfsGo, Option.some.injEq, Prod.mk.injEq, Sum.inr.injEq] at hres
    rw [← hres.1]
    exact hmc
  | cons mv rest ih =>
    intro parent minCost hmc v par2 hres
    cases happ : applyMove state mv with
    | none => simp only [dfsGo, happ] at hres; cases hres
    | some next =>
      simp only [dfsGo, happ] at hres
      by_cases hvis : (lookupParent parent (canon next)).isSome
      · rw [if_pos hvis] at hres
        exact ih parent minCost hmc v par2 hres
      · rw [if_neg hvis] at hres
        cases hrec : rec next (g + 1) (parent ++ [(canon next, canon state, mv)]) with
        | none => simp only [hrec] at hres; cases hres
        | some resPair =>
          rcases resPair with ⟨res, parent2⟩
          cases res with
          | inl w => simp only [hrec] at hres; cases hres
          | inr v2 =>
            simp only [hrec] at hres
            have hv2 := Hrec next (g + 1) _ v2 parent2 hrec
            exact ih parent2 (min minCost v2) (lt_min hmc hv2) v par2 hres

lemma depthFirst_inr_gt (h : GameMap → ℚ) (initC : Canon) (lim : ℚ) :
    ∀ (fuel : ℕ) (state : GameMap) (g : ℚ) (parent : ParentMap)
      (v : WithTop ℚ) (par2 : ParentMap),
      depthFirst h initC lim fuel state g parent = some (Sum.inr v, par2) →
      ((lim : ℚ) : WithTop ℚ) < v := by
  intro fuel
  induction fuel with
  | zero => intro state g parent v par2 hres; cases hres
  | succ fuel ih =>
    intro state g parent v par2 hres
    simp only [depthFirst] at hres
    by_cases hf : lim < g + h state
    · rw [if_pos hf] at hres
      simp only [Option.some.injEq, Prod.mk.injEq, Sum.inr.injEq] at hres
      rw [← hres.1]
      exact_mod_cast hf
    · rw [if_neg hf] at hres
      by_cases hsol : isSolved state
      · rw [if_pos hsol] at hres
        cases hrp : reconstructPath parent initC (canon state) with
        | none => rw [hrp] at hres; cases hres
        | some w => rw [hrp] at hres; simp at hres
      · rw [if_neg hsol] at hres
        exact dfsGo_inr_gt (fun st gg par v2 p2 hr => ih st gg par v2 p2 hr) _ _ _
          (WithTop.coe_lt_top lim) v par2 hres

/-- C4 (confirmed): any numeric value returned by `_depth_first` under cost
bound `limit` is either infinite or strictly greater than `limit`;
consequently, whenever an outer iteration of `solve` ends without finding a
goal and proposes a next limit, that next limit is strictly greater, so the
limit sequence is non-decreasing and strictly increasing across exhausted
iterations. -/
theorem c4_limit_monotone :
    (∀ (h : GameMap → ℚ) (initC : Canon) (lim : ℚ) (fuel : ℕ) (state : GameMap)
      (g : ℚ) (parent : ParentMap) (v : WithTop ℚ) (par2 : ParentMap),
      depthFirst h initC lim fuel state g parent = some (Sum.inr v, par2) →
      ((lim : ℚ) : WithTop ℚ) < v) ∧
    (∀ (h : GameMap → ℚ) (fd : ℕ) (init : GameMap) (lim q : ℚ),
      idaNext h fd init lim = some q → lim < q) := by
  refine ⟨fun h initC lim => depthFirst_inr_gt h initC lim, ?_⟩
  intro h fd init lim q hnext
  unfold idaNext at hnext
  cases hres : depthFirst h (canon init) lim fd init 0 [] with
  | none => rw [hres] at hnext; cases hnext
  | some resPair =>
    rw [hres] at hnext
    rcases resPair with ⟨res, par2⟩
    cases res with
    | inl w => simp at hnext
    | inr v =>
      simp only at hnext
      by_cases hv : v = ⊤
      · rw [if_pos hv] at hnext; cases hnext
      · rw [if_neg hv] at hnext
        have hlt := depthFirst_inr_gt h (canon init) lim fd init 0 [] v par2 hres
        simp only [Option.some.injEq] at hnext
        rw [← hnext]
        lift v to ℚ using hv with vq
        rw [WithTop.untop'_coe]
        exact_mod_cast hlt

def c4Map : GameMap :=
  { length := 4, width := 3, obstacles := [], targets := [(2, 1)],
    boxes := [(1, 1)], player := (0, 1), explored_states := 0 }

unseal Rat.add Rat.mul Rat.inv Rat.sub in
/-- C4 (witness): a depth-first pass under limit -1 proposes the next limit
7/2, and the theorem yields that the limit strictly increased. -/
theorem c4_witness :
    idaNext target_matching_heuristic 1 c4Map (-1) = some (7 / 2) ∧
      (-1 : ℚ) < 7 / 2 := by
  have hnext : idaNext target_matching_heuristic 1 c4Map (-1) = some (7 / 2) := by
    decide
  exact ⟨hnext, c4_limit_monotone.2 target_matching_heuristic 1 c4Map (-1) (7 / 2) hnext⟩

/-! ### Parent-map reconstruction infrastructure (claim C1) -/

/-- The second list extends the first by a (possibly empty) tail, the way the
parent map only ever grows during one iteration of the depth-first search. -/
def ListExtends {α : Type} (l₁ l₂ : List α) : Prop := ∃ t, l₂ = l₁ ++ t

lemma listExtends_refl {α : Type} (l : List α) : ListExtends l l := ⟨[], by simp⟩

lemma listExtends_trans {α : Type} {l₁ l₂ l₃ : List α}
    (h₁ : ListExtends l₁ l₂) (h₂ : ListExtends l₂ l₃) : ListExtends l₁ l₃ := by
  rcases h₁ with ⟨t₁, rfl⟩
  rcases h₂ with ⟨t₂, rfl⟩
  exact ⟨t₁ ++ t₂, by simp⟩

lemma lookupParent_isSome_append {parent tail : ParentMap} {c : Canon}
    (h : (lookupParent parent c).isSome) :
    lookupParent (parent ++ tail) c = lookupParent parent c := by
  unfold lookupParent at *
  cases hf : parent.find? (fun e => e.1 == c) with
  | none => rw [hf] at h; simp at h
  | some e => rw [List.find?_append, hf]; rfl

lemma lookupParent_eq_none_iff {parent : ParentMap} {c : Canon} :
    lookupParent parent c = none ↔ c ∉ parent.map Prod.fst := by
  unfold lookupParent
  cases hf : parent.find? (fun e => e.1 == c) with
  | none =>
    rw [List.find?_eq_none] at hf
    simp only [true_iff]
    intro hc
    rcases List.mem_map.mp hc with ⟨e, he, hec⟩
    exact hf e he (by simp [hec])
  | some e =>
    have he := List.find?_some hf
    have hmem := List.mem_of_find?_eq_some hf
    simp only [beq_iff_eq] at he
    constructor
    · intro h; cases h
    · intro h
      exact absurd (he ▸ List.mem_map_of_mem Prod.fst hmem) h

lemma lookupParent_append_fresh {parent : ParentMap} {c : Canon} {pm : Canon × Move}
    (h : c ∉ parent.map Prod.fst) :
    lookupParent (parent ++ [(c, pm)]) c = some pm := by
  unfold lookupParent
  rw [List.find?_append]
  have hnone : parent.find? (fun e => e.1 == c) = none := by
    have := lookupParent_eq_none_iff.mpr h
    unfold lookupParent at this
    cases hf : parent.find? (fun e => e.1 == c) with
    | none => rfl
    | some e => rw [hf] at this; cases this
  rw [hnone]
  simp [List.find?]

lemma chaseParent_succ (parent : ParentMap) (initC : Canon) (fuel : ℕ) (c : Canon) :
    chaseParent parent initC (fuel + 1) c =
      if c = initC then some []
      else
        match lookupParent parent c with
        | none => none
        | some (p, mv) =>
          match chaseParent parent initC fuel p with
          | none => none
          | some ws => some (mv :: ws) := rfl

lemma chaseParent_fuel_mono {parent : ParentMap} {initC : Canon} :
    ∀ {fuel : ℕ} {c : Canon} {ws : List Move},
      chaseParent parent initC fuel c = some ws →
      chaseParent parent initC (fuel + 1) c = some ws := by
  intro fuel
  induction fuel with
  | zero => intro c ws h; cases h
  | succ fuel ih =>
    intro c ws h
    rw [chaseParent_succ] at h ⊢
    by_cases hc : c = initC
    · rw [if_pos hc] at h ⊢; exact h
    · rw [if_neg hc] at h ⊢
      cases hl : lookupParent parent c with
      | none => rw [hl] at h; cases h
      | some pm =>
        rcases pm with ⟨p, mv⟩
        simp only [hl] at h ⊢
        cases hch : chaseParent parent initC fuel p with
        | none => rw [hch] at h; cases h
        | some ws2 =>
          rw [hch] at h
          rw [ih hch]
          exact h

lemma chaseParent_fuel_le {parent : ParentMap} {initC : Canon} (fuel fuel2 : ℕ)
    (hle : fuel ≤ fuel2) {c : Canon} {ws : List Move}
    (h : chaseParent parent initC fuel c = some ws) :
    chaseParent parent initC fuel2 c = some ws := by
  induction fuel2 with
  | zero =>
    have : fuel = 0 := Nat.le_zero.mp hle
    subst this; exact h
  | succ fuel2 ih =>
    by_cases heq : fuel = fuel2 + 1
    · subst heq; exact h
    · have : fuel ≤ fuel2 := by omega
      exact chaseParent_fuel_mono (ih this)

lemma chaseParent_append {parent : ParentMap} (tail : ParentMap) {initC : Canon} :
    ∀ {fuel : ℕ} {c : Canon} {ws : List Move},
      chaseParent parent initC fuel c = some ws →
      chaseParent (parent ++ tail) initC fuel c = some ws := by
  intro fuel
  induction fuel with
  | zero => intro c ws h; cases h
  | succ fuel ih =>
    intro c ws h
    rw [chaseParent_succ] at h ⊢
    by_cases hc : c = initC
    · rw [if_pos hc] at h ⊢; exact h
    · rw [if_neg hc] at h ⊢
      cases hl : lookupParent parent c with
      | none => rw [hl] at h; cases h
      | some pm =>
        rcases pm with ⟨p, mv⟩
        rw [lookupParent_isSome_append (by rw [hl]; rfl), hl]
        rw [hl] at h
        simp only at h ⊢
        cases hch : chaseParent parent initC fuel p with
        | none => rw [hch] at h; cases h
        | some ws2 =>
          rw [hch] at h
          rw [ih hch]
          exact h

/-- A canonical identity is accounted for by the parent map: reconstruction
succeeds and replaying the reconstructed move list from the initial state
reaches a state with that identity. -/
def PathOk (init : GameMap) (parent : ParentMap) (c : Canon) : Prop :=
  ∃ w s, reconstructPath parent (canon init) c = some w ∧
    replayMoves init w = some s ∧ canon s = c

/-- Every key of the parent map is accounted for. -/
def ParentInv (init : GameMap) (parent : ParentMap) : Prop :=
  ∀ c ∈ parent.map Prod.fst, PathOk init parent c

lemma pathOk_extends {init : GameMap} {parent parent2 : ParentMap} {c : Canon}
    (hext : ListExtends parent parent2) (h : PathOk init parent c) :
    PathOk init parent2 c := by
  rcases hext with ⟨tail, rfl⟩
  rcases h with ⟨w, s, hrec, hrep, hc⟩
  refine ⟨w, s, ?_, hrep, hc⟩
  unfold reconstructPath at hrec ⊢
  cases hch : chaseParent parent (canon init) (parent.length + 1) c with
  | none => rw [hch] at hrec; cases hrec
  | some ws =>
    rw [hch] at hrec
    have h2 := chaseParent_append tail hch
    have h3 := chaseParent_fuel_le (parent.length + 1) ((parent ++ tail).length + 1)
      (by simp only [List.length_append]; omega) h2
    rw [h3]
    exact hrec

lemma pathOk_init (init : GameMap) (parent : ParentMap) :
    PathOk init parent (canon init) := by
  refine ⟨[], init, ?_, rfl, rfl⟩
  unfold reconstructPath
  have : chaseParent parent (canon init) (parent.length + 1) (canon init) = some [] := by
    rw [chaseParent_succ]
    rw [if_pos rfl]
  rw [this]
  rfl

/-- The static fields never touched by `apply_move`. -/
def SameStatics (a b : GameMap) : Prop :=
  a.length = b.length ∧ a.width = b.width ∧ a.obstacles = b.obstacles ∧
    a.targets = b.targets

lemma sameStatics_refl (a : GameMap) : SameStatics a a := ⟨rfl, rfl, rfl, rfl⟩

lemma sameStatics_trans {a b c : GameMap} (h₁ : SameStatics a b) (h₂ : SameStatics b c) :
    SameStatics a c :=
  ⟨h₁.1.trans h₂.1, h₁.2.1.trans h₂.2.1, h₁.2.2.1.trans h₂.2.2.1, h₁.2.2.2.trans h₂.2.2.2⟩

lemma applyMove_statics {a a' : GameMap} {mv : Move} (h : applyMove a mv = some a') :
    SameStatics a' a := by
  simp only [applyMove] at h
  split_ifs at h with h1 h2 h3
  · injection h with h; rw [← h]; exact ⟨rfl, rfl, rfl, rfl⟩
  · injection h with h; rw [← h]; exact ⟨rfl, rfl, rfl, rfl⟩

lemma replayMoves_statics {init : GameMap} :
    ∀ {w : List Move} {s : GameMap}, replayMoves init w = some s → SameStatics s init := by
  suffices haux : ∀ (w : List Move) (st s : GameMap), replayMoves st w = some s →
      SameStatics s st by
    intro w s h; exact haux w init s h
  intro w
  induction w with
  | nil =>
    intro st s h
    simp only [replayMoves, Option.some.injEq] at h
    rw [← h]; exact sameStatics_refl st
  | cons mv rest ih =>
    intro st s h
    simp only [replayMoves] at h
    cases ha : applyMove st mv with
    | none => rw [ha] at h; cases h
    | some st2 =>
      rw [ha] at h
      exact sameStatics_trans (ih st2 s h) (applyMove_statics ha)

lemma replayMoves_append (st : GameMap) (u : List Move) (mv : Move) :
    replayMoves st (u ++ [mv]) =
      (replayMoves st u).bind (fun s => applyMove s mv) := by
  induction u generalizing st with
  | nil =>
    show replayMoves st [mv] = (some st).bind fun s => applyMove s mv
    simp only [replayMoves, Option.some_bind]
    cases ha : applyMove st mv <;> rfl
  | cons m rest ih =>
    simp only [List.cons_append, replayMoves]
    cases applyMove st m with
    | none => rfl
    | some st2 => exact ih st2

lemma isSolved_congr {a b : GameMap} (hb : a.boxes = b.boxes)
    (ht : a.targets = b.targets) : isSolved a ↔ isSolved b := by
  unfold isSolved
  rw [hb, ht]

lemma applyMove_congr {a : GameMap} (b : GameMap) (mv : Move) (hp : b.player = a.player)
    (hb : b.boxes = a.boxes) (ho : b.obstacles = a.obstacles)
    (hl : b.length = a.length) (hw : b.width = a.width) :
    Option.map canon (applyMove b mv) = Option.map canon (applyMove a mv) := by
  obtain ⟨bl, bw, bo, bt, bb, bp, be⟩ := b
  simp only at hp hb ho hl hw
  subst hp hb ho hl hw
  simp only [applyMove, inBounds]
  split_ifs <;> simp [canon]

/-- The depth-first search contract: whenever the call returns, the parent map
has only grown, every key of the new parent map is still accounted for, and a
returned move list replays from the initial state to a goal state. -/
def DfsOk (init : GameMap) (parent : ParentMap)
    (res : Option (DfsRes × ParentMap)) : Prop :=
  ∀ r parent2, res = some (r, parent2) →
    ListExtends parent parent2 ∧ ParentInv init parent2 ∧
      ∀ w, r = Sum.inl w → ∃ s, replayMoves init w = some s ∧ isSolved s

lemma dfsOk_widen {init : GameMap} {parent parent1 : ParentMap}
    {res : Option (DfsRes × ParentMap)} (hext : ListExtends parent parent1)
    (h : DfsOk init parent1 res) : DfsOk init parent res := by
  intro r parent2 heq
  rcases h r parent2 heq with ⟨hext2, hinv2, hsol2⟩
  exact ⟨listExtends_trans hext hext2, hinv2, hsol2⟩

lemma parentInv_nil (init : GameMap) : ParentInv init [] := by
  intro c hc
  simp at hc

lemma pathOk_snoc {init : GameMap} {parent : ParentMap} {state next : GameMap}
    {mv : Move} (hcur : PathOk init parent (canon state))
    (hstat : SameStatics state init) (happ : applyMove state mv = some next)
    (hfresh : canon next ∉ parent.map Prod.fst) :
    PathOk init (parent ++ [(canon next, (canon state, mv))]) (canon next) := by
  by_cases hcn : canon next = canon init
  · rw [hcn]
    exact pathOk_init init _
  · rcases hcur with ⟨w, s, hrec, hrep, hcanon⟩
    unfold reconstructPath at hrec
    cases hch : chaseParent parent (canon init) (parent.length + 1) (canon state) with
    | none => rw [hch] at hrec; cases hrec
    | some ws =>
      rw [hch] at hrec
      simp only [Option.map_some', Option.some.injEq] at hrec
      have hstats : SameStatics s init := replayMoves_statics hrep
      have hps : s.player = state.player := by
        have := congrArg Prod.fst hcanon
        simpa [canon] using this
      have hbs : s.boxes = state.boxes := by
        have := congrArg Prod.snd hcanon
        simpa [canon] using this
      have hcongr := applyMove_congr s mv hps hbs
        (hstats.2.2.1.trans hstat.2.2.1.symm) (hstats.1.trans hstat.1.symm)
        (hstats.2.1.trans hstat.2.1.symm)
      rw [happ] at hcongr
      simp only [Option.map_some'] at hcongr
      rcases Option.map_eq_some'.mp hcongr with ⟨s2, hs2, hcs2⟩
      refine ⟨w ++ [mv], s2, ?_, ?_, hcs2⟩
      · unfold reconstructPath
        have hlen : (parent ++ [(canon next, (canon state, mv))]).length + 1 =
            parent.length + 1 + 1 := by simp
        rw [hlen, chaseParent_succ, if_neg hcn, lookupParent_append_fresh hfresh]
        have hch1 := chaseParent_append [(canon next, (canon state, mv))] hch
        simp only [hch1]
        simp [← hrec]
      · rw [replayMoves_append, hrep, Option.some_bind]
        exact hs2

lemma dfsGo_ok {init : GameMap}
    {rec : GameMap → ℚ → ParentMap → Option (DfsRes × ParentMap)}
    (Hrec : ∀ st gg par, ParentInv init par → PathOk init par (canon st) →
      SameStatics st init → DfsOk init par (rec st gg par))
    (state : GameMap) (g : ℚ) (hstat : SameStatics state init) :
    ∀ (moves : List Move) (parent : ParentMap) (minCost : WithTop ℚ),
      ParentInv init parent → PathOk init parent (canon state) →
      DfsOk init parent (dfsGo rec state g moves parent minCost) := by
  intro moves
  induction moves with
  | nil =>
    intro parent minCost hinv hcur r parent2 heq
    have heq2 : (some (Sum.inr minCost, parent) : Option (DfsRes × ParentMap)) =
        some (r, parent2) := heq
    simp only [Option.some.injEq, Prod.mk.injEq] at heq2
    rcases heq2 with ⟨hr, hp⟩
    subst hp
    refine ⟨listExtends_refl parent, hinv, ?_⟩
    intro w hw
    rw [← hr] at hw
    cases hw
  | cons mv rest ih =>
    intro parent minCost hinv hcur
    cases happ : applyMove state mv with
    | none =>
      intro r parent2 heq
      simp only [dfsGo, happ] at heq
      cases heq
    | some next =>
      by_cases hvis : (lookupParent parent (canon next)).isSome
      · have heq : dfsGo rec state g (mv :: rest) parent minCost =
            dfsGo rec state g rest parent minCost := by
          simp only [dfsGo, happ]
          rw [if_pos hvis]
        rw [heq]
        exact ih parent minCost hinv hcur
      · have hfresh : canon next ∉ parent.map Prod.fst := by
          rw [← lookupParent_eq_none_iff]
          exact Option.not_isSome_iff_eq_none.mp hvis
        have hext1 : ListExtends parent
            (parent ++ [(canon next, (canon state, mv))]) := ⟨_, rfl⟩
        have hnext1 : PathOk init (parent ++ [(canon next, (canon state, mv))])
            (canon next) := pathOk_snoc hcur hstat happ hfresh
        have hinv1 : ParentInv init (parent ++ [(canon next, (canon state, mv))]) := by
          intro c hc
          simp only [List.map_append, List.map_cons, List.map_nil,
            List.mem_append, List.mem_singleton] at hc
          rcases hc with hc | hc
          · exact pathOk_extends hext1 (hinv c hc)
          · rw [hc]
            exact hnext1
        have hcur1 : PathOk init (parent ++ [(canon next, (canon state, mv))])
            (canon state) := pathOk_extends hext1 hcur
        have hstatn : SameStatics next init :=
          sameStatics_trans (applyMove_statics happ) hstat
        have hrecspec := Hrec next (g + 1) _ hinv1 hnext1 hstatn
        cases hr : rec next (g + 1) (parent ++ [(canon next, (canon state, mv))]) with
        | none =>
          intro r parent2 heq
          simp only [dfsGo, happ] at heq
          rw [if_neg hvis] at heq
          simp only [hr] at heq
          cases heq
        | some resPair =>
          rcases resPair with ⟨res2, parent2⟩
          rcases hrecspec res2 parent2 hr with ⟨hext2, hinv2, hsol2⟩
          cases res2 with
          | inl w =>
            intro r parent3 heq
            simp only [dfsGo, happ] at heq
            rw [if_neg hvis] at heq
            simp only [hr, Option.some.injEq, Prod.mk.injEq] at heq
            rcases heq with ⟨hr3, hp3⟩
            subst hp3
            refine ⟨listExtends_trans hext1 hext2, hinv2, ?_⟩
            intro w2 hw2
            rw [← hr3] at hw2
            injection hw2 with hww
            exact hww ▸ hsol2 w rfl
          | inr v =>
            have heq : dfsGo rec state g (mv :: rest) parent minCost =
                dfsGo rec state g rest parent2 (min minCost v) := by
              simp only [dfsGo, happ]
              rw [if_neg hvis]
              simp only [hr]
            rw [heq]
            exact dfsOk_widen (listExtends_trans hext1 hext2)
              (ih parent2 (min minCost v) hinv2 (pathOk_extends hext2 hcur1))

lemma depthFirst_ok (init : GameMap) (h : GameMap → ℚ) (lim : ℚ) :
    ∀ (fuel : ℕ) (state : GameMap) (g : ℚ) (parent : ParentMap),
      ParentInv init parent → PathOk init parent (canon state) →
      SameStatics state init →
      DfsOk init parent (depthFirst h (canon init) lim fuel state g parent) := by
  intro fuel
  induction fuel with
  | zero =>
    intro state g parent _ _ _ r parent2 heq
    cases heq
  | succ fuel ih =>
    intro state g parent hinv hcur hstat
    by_cases hf : lim < g + h state
    · intro r parent2 heq
      simp only [depthFirst] at heq
      rw [if_pos hf] at heq
      simp only [Option.some.injEq, Prod.mk.injEq] at heq
      rcases heq with ⟨hr, hp⟩
      subst hp
      refine ⟨listExtends_refl parent, hinv, ?_⟩
      intro w hw
      rw [← hr] at hw
      cases hw
    · by_cases hsol : isSolved state
      · rcases hcur with ⟨w, s, hrec, hrep, hcanon⟩
        intro r parent2 heq
        simp only [depthFirst] at heq
        rw [if_neg hf, if_pos hsol] at heq
        simp only [hrec, Option.some.injEq, Prod.mk.injEq] at heq
        rcases heq with ⟨hr, hp⟩
        subst hp
        refine ⟨listExtends_refl parent, hinv, ?_⟩
        intro w2 hw2
        rw [← hr] at hw2
        injection hw2 with hww
        refine ⟨s, hww ▸ hrep, ?_⟩
        have hbs : s.boxes = state.boxes := by
          have := congrArg Prod.snd hcanon
          simpa [canon] using this
        have hts : s.targets = state.targets :=
          (replayMoves_statics hrep).2.2.2.trans hstat.2.2.2.symm
        exact (isSolved_congr hbs hts).mpr hsol
      · have heq : depthFirst h (canon init) lim (fuel + 1) state g parent =
            dfsGo (fun st gg par => depthFirst h (canon init) lim fuel st gg par)
              state g (filterPossibleMoves state) parent ⊤ := by
          simp only [depthFirst]
          rw [if_neg hf, if_neg hsol]
        rw [heq]
        exact dfsGo_ok (fun st gg par a b c => ih st gg par a b c) state g hstat
          (filterPossibleMoves state) parent ⊤ hinv hcur

lemma idaLoop_sound (h : GameMap → ℚ) (fd : ℕ) (init : GameMap) :
    ∀ (fo : ℕ) (lim : ℚ) (w : List Move), idaLoop h fd init fo lim = some w →
      w ≠ [] → ∃ s, replayMoves init w = some s ∧ isSolved s := by
  intro fo
  induction fo with
  | zero => intro lim w heq _; cases heq
  | succ fo ih =>
    intro lim w heq hne
    simp only [idaLoop] at heq
    by_cases hl10 : lim < 10000
    · rw [if_pos hl10] at heq
      cases hdfs : depthFirst h (canon init) lim fd init 0 [] with
      | none => rw [hdfs] at heq; cases heq
      | some resPair =>
        rcases resPair with ⟨res, par2⟩
        cases res with
        | inl w2 =>
          simp only [hdfs, Option.some.injEq] at heq
          have hspec := depthFirst_ok init h lim fd init 0 [] (parentInv_nil init)
            (pathOk_init init []) (sameStatics_refl init) (Sum.inl w2) par2 hdfs
          rcases hspec with ⟨_, _, hsol⟩
          rw [← heq]
          exact hsol w2 rfl
        | inr v =>
          simp only [hdfs] at heq
          by_cases hv : v = ⊤
          · rw [if_pos hv] at heq
            simp only [Option.some.injEq] at heq
            exact absurd heq.symm hne
          · rw [if_neg hv] at heq
            exact ih _ w heq hne
    · rw [if_neg hl10] at heq
      simp only [Option.some.injEq] at heq
      exact absurd heq.symm hne

lemma validateSolution_sound {init : GameMap} {w : List Move}
    (h : validateSolution init w = true) :
    ∃ s, replayMoves init w = some s ∧ isSolved s := by
  unfold validateSolution at h
  cases hrep : replayMoves init w with
  | none => rw [hrep] at h; cases h
  | some s =>
    rw [hrep] at h
    exact ⟨s, rfl, of_decide_eq_true h⟩

lemma saInner_answer_validated {h : GameMap → ℚ} {initial : GameMap} {rng : Rng} :
    ∀ {fuel : ℕ} {temp : ℚ} {state : GameMap} {score : ℚ} {movesSoFar : List Move}
      {bestScore : ℚ} {bestSeq : List Move} {n : ℕ} {w : List Move} {n2 : ℕ},
      saInner h initial rng fuel temp state score movesSoFar bestScore bestSeq n =
        (SAInner.answer w, n2) →
      validateSolution initial w = true := by
  intro fuel
  induction fuel with
  | zero =>
    intro temp state score movesSoFar bestScore bestSeq n w n2 heq
    simp only [saInner, Prod.mk.injEq] at heq
    cases heq.1
  | succ fuel ih =>
    intro temp state score movesSoFar bestScore bestSeq n w n2 heq
    simp only [saInner] at heq
    by_cases ht : ¬ (1 / 10 < temp)
    · rw [if_pos ht] at heq
      simp only [Prod.mk.injEq] at heq
      cases heq.1
    · rw [if_neg ht] at heq
      by_cases hsol : isSolved state
      · rw [if_pos hsol] at heq
        by_cases hval : validateSolution initial movesSoFar = true
        · rw [if_pos hval] at heq
          simp only [Prod.mk.injEq, SAInner.answer.injEq] at heq
          rw [← heq.1]
          exact hval
        · rw [if_neg hval] at heq
          simp only [Prod.mk.injEq] at heq
          cases heq.1
      · rw [if_neg hsol] at heq
        by_cases hleg : filterPossibleMoves state = []
        · rw [if_pos hleg] at heq
          simp only [Prod.mk.injEq] at heq
          cases heq.1
        · rw [if_neg hleg] at heq
          by_cases hacc : rng.draw (n + 1) <
              acceptChance
                (h ((applyMove state (rngChoice rng n (filterPossibleMoves state))).getD
                  state) - score) temp
          · rw [if_pos hacc] at heq
            exact ih heq
          · rw [if_neg hacc] at heq
            exact ih heq

lemma saLoop_sound {h : GameMap → ℚ} {initial : GameMap} {rng : Rng} :
    ∀ (r : ℕ) (lastBest : WithTop ℚ) (overall : List Move) (n : ℕ) (w : List Move),
      (overall ≠ [] → validateSolution initial overall = true) →
      saLoop h initial rng r lastBest overall n = some w →
      validateSolution initial w = true := by
  intro r
  induction r with
  | zero => intro lastBest overall n w _ heq; cases heq
  | succ r ih =>
    intro lastBest overall n w hov heq
    simp only [saLoop] at heq
    cases hres : (saInner h initial rng 100000 1000
        (perturbInitialState rng (perturbCount lastBest) initial n).1
        (h (perturbInitialState rng (perturbCount lastBest) initial n).1) []
        (h (perturbInitialState rng (perturbCount lastBest) initial n).1) []
        (perturbInitialState rng (perturbCount lastBest) initial n).2).1 with
    | answer w2 =>
      simp only [hres] at heq
      simp only [Option.some.injEq] at heq
      rw [← heq]
      have hpair : saInner h initial rng 100000 1000
          (perturbInitialState rng (perturbCount lastBest) initial n).1
          (h (perturbInitialState rng (perturbCount lastBest) initial n).1) []
          (h (perturbInitialState rng (perturbCount lastBest) initial n).1) []
          (perturbInitialState rng (perturbCount lastBest) initial n).2 =
          (SAInner.answer w2,
            (saInner h initial rng 100000 1000
              (perturbInitialState rng (perturbCount lastBest) initial n).1
              (h (perturbInitialState rng (perturbCount lastBest) initial n).1) []
              (h (perturbInitialState rng (perturbCount lastBest) initial n).1) []
              (perturbInitialState rng (perturbCount lastBest) initial n).2).2) := by
        rw [← hres]
      exact saInner_answer_validated hpair
    | runEnd bestScore bestSeq =>
      simp only [hres] at heq
      by_cases hcond : overall = [] ∨ (bestSeq ≠ [] ∧ bestSeq.length < overall.length)
      · rw [if_pos hcond] at heq
        by_cases hval : validateSolution initial bestSeq = true
        · rw [if_pos hval] at heq
          by_cases hne : bestSeq ≠ []
          · rw [if_pos hne] at heq
            simp only [Option.some.injEq] at heq
            rw [← heq]
            exact hval
          · rw [if_neg hne] at heq
            exact ih _ _ _ w (fun _ => hval) heq
        · rw [if_neg hval] at heq
          by_cases hne : overall ≠ []
          · rw [if_pos hne] at heq
            simp only [Option.some.injEq] at heq
            rw [← heq]
            exact hov hne
          · rw [if_neg hne] at heq
            exact ih _ _ _ w (fun hc => absurd hc hne) heq
      · rw [if_neg hcond] at heq
        by_cases hne : overall ≠ []
        · rw [if_pos hne] at heq
          simp only [Option.some.injEq] at heq
          rw [← heq]
          exact hov hne
        · rw [if_neg hne] at heq
          exact ih _ _ _ w (fun hc => absurd hc hne) heq

/-- C1 (confirmed): every non-empty move sequence returned by
`IDAStarSolver.solve` or `SimulatedAnnealingSolver.solve` replays from the
initial state through `apply_move` without any illegal-move error and ends in
a state where `is_solved()` holds. -/
theorem c1_solutions_replay_to_goal :
    (∀ (h : GameMap → ℚ) (fo fd : ℕ) (init : GameMap) (w : List Move),
      idaSolve h fo fd init = some w → w ≠ [] →
      ∃ s, replayMoves init w = some s ∧ isSolved s) ∧
    (∀ (h : GameMap → ℚ) (rng : Rng) (r : ℕ) (init : GameMap) (w : List Move),
      saSolve h rng r init = some w → w ≠ [] →
      ∃ s, replayMoves init w = some s ∧ isSolved s) := by
  constructor
  · intro h fo fd init w heq hne
    exact idaLoop_sound h fd init fo (h init) w heq hne
  · intro h rng r init w heq _
    exact validateSolution_sound (saLoop_sound r ⊤ [] 0 w (fun hc => absurd rfl hc) heq)

def c1Map : GameMap :=
  { length := 4, width := 3, obstacles := [], targets := [(2, 1)],
    boxes := [(1, 1)], player := (0, 1), explored_states := 0 }

unseal Rat.add Rat.mul Rat.inv Rat.sub in
/-- C1 (witness): on a one-push board, IDA* returns the single-move solution
and the theorem yields its valid replay to a goal state. -/
theorem c1_witness :
    idaSolve target_matching_heuristic 1 2 c1Map = some [Move.right] ∧
      ∃ s, replayMoves c1Map [Move.right] = some s ∧ isSolved s := by
  have hsolve : idaSolve target_matching_heuristic 1 2 c1Map = some [Move.right] := by
    decide
  exact ⟨hsolve, c1_solutions_replay_to_goal.1 target_matching_heuristic 1 2 c1Map
    [Move.right] hsolve (by decide)⟩

/-! ### Already-solved boards (claim C2) -/

lemma acceptChance_pos (delta temp : ℚ) : (0 : ℝ) < acceptChance delta temp := by
  unfold acceptChance
  split_ifs
  · exact Real.exp_pos _
  · norm_num

lemma saInner_step_accept (h : GameMap → ℚ) (initial : GameMap) (rng : Rng)
    (fuel : ℕ) (temp : ℚ) (state : GameMap) (score : ℚ) (moves : List Move)
    (bs : ℚ) (bseq : List Move) (n : ℕ) (hfuel : 0 < fuel)
    (htemp : (1 : ℚ) / 10 < temp) (hns : ¬ isSolved state)
    (hlegal : filterPossibleMoves state ≠ [])
    (hdraw : rng.draw (n + 1) = 0) :
    saInner h initial rng fuel temp state score moves bs bseq n =
      saInner h initial rng (fuel - 1) (temp * (199 / 200))
        ((applyMove state (rngChoice rng n (filterPossibleMoves state))).getD state)
        (h ((applyMove state (rngChoice rng n (filterPossibleMoves state))).getD state))
        (moves ++ [rngChoice rng n (filterPossibleMoves state)])
        (if h ((applyMove state (rngChoice rng n (filterPossibleMoves state))).getD state) < bs
          then h ((applyMove state (rngChoice rng n (filterPossibleMoves state))).getD state)
          else bs)
        (if h ((applyMove state (rngChoice rng n (filterPossibleMoves state))).getD state) < bs
          then moves ++ [rngChoice rng n (filterPossibleMoves state)]
          else bseq)
        (n + 2) := by
  cases fuel with
  | zero => cases hfuel
  | succ fuel =>
    simp only [saInner]
    rw [if_neg (not_not_intro htemp), if_neg hns, if_neg hlegal,
      if_pos (show rng.draw (n + 1) <
        acceptChance
          (h ((applyMove state (rngChoice rng n (filterPossibleMoves state))).getD state)
            - score) temp from hdraw ▸ acceptChance_pos _ _)]
    simp only [Nat.succ_sub_one, apply_ite Prod.fst, apply_ite Prod.snd]

lemma saInner_solved_answer (h : GameMap → ℚ) (initial : GameMap) (rng : Rng)
    (fuel : ℕ) (temp : ℚ) (state : GameMap) (score : ℚ) (moves : List Move)
    (bs : ℚ) (bseq : List Move) (n : ℕ) (hfuel : 0 < fuel)
    (htemp : (1 : ℚ) / 10 < temp) (hsol : isSolved state)
    (hval : validateSolution initial moves = true) :
    saInner h initial rng fuel temp state score moves bs bseq n =
      (SAInner.answer moves, n) := by
  cases fuel with
  | zero => cases hfuel
  | succ fuel =>
    simp only [saInner]
    rw [if_neg (not_not_intro htemp), if_pos hsol, if_pos hval]

/-- C2 (amended): on a board already in goal configuration, `IDAStarSolver.solve`
returns the empty sequence immediately; `SimulatedAnnealingSolver.solve` first
applies its perturbation walk, and returns the empty sequence whenever that
walk leaves the state solved (the first inner iteration validates the empty
move log against the initial state), but not in general. -/
theorem c2_already_solved (h : GameMap → ℚ) (init : GameMap) (hs : isSolved init) :
    (∀ fo fd : ℕ, idaSolve h (fo + 1) (fd + 1) init = some []) ∧
    (∀ (rng : Rng) (r : ℕ), isSolved (perturbInitialState rng 5 init 0).1 →
      saSolve h rng (r + 1) init = some []) := by
  constructor
  · intro fo fd
    unfold idaSolve
    simp only [idaLoop]
    by_cases h10 : h init < 10000
    · rw [if_pos h10]
      have hdfs : depthFirst h (canon init) (h init) (fd + 1) init 0 [] =
          some (Sum.inl [], []) := by
        simp only [depthFirst]
        rw [if_neg (by rw [zero_add]; exact lt_irrefl _), if_pos hs]
        have hrp : reconstructPath [] (canon init) (canon init) = some [] := by
          unfold reconstructPath
          rw [show ([] : ParentMap).length + 1 = 0 + 1 from rfl, chaseParent_succ,
            if_pos rfl]
          rfl
        rw [hrp]
      rw [hdfs]
    · rw [if_neg h10]
  · intro rng r hp
    unfold saSolve
    simp only [saLoop]
    have hpc : perturbCount ⊤ = 5 := rfl
    rw [hpc]
    rw [saInner_solved_answer h init rng 100000 1000
      (perturbInitialState rng 5 init 0).1
      (h (perturbInitialState rng 5 init 0).1) []
      (h (perturbInitialState rng 5 init 0).1) []
      (perturbInitialState rng 5 init 0).2 (by norm_num) (by norm_num) hp
      (by unfold validateSolution replayMoves; exact decide_eq_true hs)]

def c2Map : GameMap :=
  { length := 5, width := 5, obstacles := [], targets := [(2, 2), (4, 2), (1, 2)],
    boxes := [(2, 2)], player := (1, 2), explored_states := 0 }

def c2Pick : ℕ → ℕ := fun n =>
  match n with
  | 0 => 3 | 1 => 0 | 2 => 1 | 3 => 0 | 4 => 1
  | 5 => 0 | 7 => 3 | 9 => 3 | 11 => 1 | 13 => 2 | _ => 0

noncomputable def c2Rng : Rng := ⟨c2Pick, fun _ => 0⟩

def c2Perturbed : GameMap :=
  { length := 5, width := 5, obstacles := [], targets := [(2, 2), (4, 2), (1, 2)],
    boxes := [(3, 2)], player := (2, 2), explored_states := 0 }

def c2s1 : GameMap := { c2Perturbed with player := (2, 3) }
def c2s2 : GameMap := { c2Perturbed with player := (3, 3) }
def c2s3 : GameMap := { c2Perturbed with player := (4, 3) }
def c2s4 : GameMap := { c2Perturbed with player := (4, 2) }
def c2s5 : GameMap := { c2Perturbed with player := (3, 2), boxes := [(2, 2)] }

/-- C2 (counterexample): on an already-solved board (one box on a target, two
spare targets), a run of the simulated-annealing solver perturbs the box off
its target and then returns the five-move sequence up, right, right, down,
left, whose replay from the initial state is valid; the solver therefore does
not return the empty sequence on every already-solved board. -/
theorem c2_counterexample :
    isSolved c2Map ∧
      saSolve target_matching_heuristic c2Rng 1 c2Map =
        some [Move.up, Move.right, Move.right, Move.down, Move.left] := by
  constructor
  · decide
  · unfold saSolve
    simp only [saLoop]
    have hperm : perturbInitialState c2Rng (perturbCount ⊤) c2Map 0 =
        (c2Perturbed, 5) := by decide
    rw [hperm]
    have e1c : rngChoice c2Rng 5 (filterPossibleMoves c2Perturbed) = Move.up := by decide
    have e1a : (applyMove c2Perturbed Move.up).getD c2Perturbed = c2s1 := by decide
    have e2c : rngChoice c2Rng (5 + 2) (filterPossibleMoves c2s1) = Move.right := by
      decide
    have e2a : (applyMove c2s1 Move.right).getD c2s1 = c2s2 := by decide
    have e3c : rngChoice c2Rng (5 + 2 + 2) (filterPossibleMoves c2s2) = Move.right := by
      decide
    have e3a : (applyMove c2s2 Move.right).getD c2s2 = c2s3 := by decide
    have e4c : rngChoice c2Rng (5 + 2 + 2 + 2) (filterPossibleMoves c2s3) =
        Move.down := by decide
    have e4a : (applyMove c2s3 Move.down).getD c2s3 = c2s4 := by decide
    have e5c : rngChoice c2Rng (5 + 2 + 2 + 2 + 2) (filterPossibleMoves c2s4) =
        Move.left := by decide
    have e5a : (applyMove c2s4 Move.left).getD c2s4 = c2s5 := by decide
    rw [saInner_step_accept target_matching_heuristic c2Map c2Rng 100000 1000
      c2Perturbed _ _ _ _ _ (by norm_num) (by norm_num) (by decide) (by decide) rfl]
    rw [e1c, e1a]
    rw [saInner_step_accept target_matching_heuristic c2Map c2Rng (100000 - 1)
      (1000 * (199 / 200)) c2s1 _ _ _ _ _
      (by norm_num) (by norm_num) (by decide) (by decide) rfl]
    rw [e2c, e2a]
    rw [saInner_step_accept target_matching_heuristic c2Map c2Rng (100000 - 1 - 1)
      (1000 * (199 / 200) * (199 / 200)) c2s2 _ _ _ _ _
      (by norm_num) (by norm_num) (by decide) (by decide) rfl]
    rw [e3c, e3a]
    rw [saInner_step_accept target_matching_heuristic c2Map c2Rng (100000 - 1 - 1 - 1)
      (1000 * (199 / 200) * (199 / 200) * (199 / 200)) c2s3 _ _ _ _ _
      (by norm_num) (by norm_num) (by decide) (by decide) rfl]
    rw [e4c, e4a]
    rw [saInner_step_accept target_matching_heuristic c2Map c2Rng
      (100000 - 1 - 1 - 1 - 1)
      (1000 * (199 / 200) * (199 / 200) * (199 / 200) * (199 / 200)) c2s4 _ _ _ _ _
      (by norm_num) (by norm_num) (by decide) (by decide) rfl]
    rw [e5c, e5a]
    simp only [List.nil_append, List.cons_append]
    rw [saInner_solved_answer target_matching_heuristic c2Map c2Rng
      (100000 - 1 - 1 - 1 - 1 - 1)
      (1000 * (199 / 200) * (199 / 200) * (199 / 200) * (199 / 200) * (199 / 200))
      c2s5 _ [Move.up, Move.right, Move.right, Move.down, Move.left] _ _ _
      (by norm_num) (by norm_num) (by decide) (by decide)]

def c2StuckMap : GameMap :=
  { length := 3, width := 3, obstacles := [(0, 1), (1, 0)], targets := [(1, 1)],
    boxes := [(1, 1)], player := (0, 0), explored_states := 0 }

/-- C2 (witness): the amended statement evaluated on a solved board whose agent
has no legal move, so the perturbation walk leaves the state untouched and both
solvers return the empty sequence. -/
theorem c2_witness :
    idaSolve target_matching_heuristic 1 1 c2StuckMap = some [] ∧
      ∀ rng : Rng, saSolve target_matching_heuristic rng 1 c2StuckMap = some [] := by
  have hs : isSolved c2StuckMap := by decide
  constructor
  · exact (c2_already_solved target_matching_heuristic c2StuckMap hs).1 0 0
  · intro rng
    refine (c2_already_solved target_matching_heuristic c2StuckMap hs).2 rng 0 ?_
    have hstuck : filterPossibleMoves c2StuckMap = [] := by decide
    rw [perturbInitialState_stuck rng c2StuckMap 0 hstuck 5]
    exact hs

/-! ### Heap model of copies and in-place mutation (claim C10)

The pure embedding above abstracts `copy()` and in-place `apply_move` into
functional updates.  To reason about which state object each `apply_move`
mutates, the solvers are re-embedded here over an explicit heap of board
states: references are heap indices, `copy()` allocates a fresh cell, and
`apply_move` overwrites the receiver's cell, exactly at the places the Python
sources call them. -/

abbrev Heap := List GameMap

def heapGet (heap : Heap) (r : ℕ) : GameMap := heap.getD r default

/-- Modelled from the spec: `copy()` returns a deep, independent clone (spec
section 6); in the heap model it allocates a fresh cell with the same board. -/
def copyRef (heap : Heap) (r : ℕ) : Heap × ℕ :=
  (heap ++ [heapGet heap r], heap.length)

/-- In-place `apply_move` on the board held in cell `r`. -/
def applyMoveRef (heap : Heap) (r : ℕ) (mv : Move) : Option Heap :=
  match applyMove (heapGet heap r) mv with
  | none => none
  | some st => some (heap.set r st)

/-- The heap-model depth-first successor loop: `next_state = state.copy()`
followed by `next_state.apply_move(move)`, per move of the legal-move list. -/
def dfsGoH (rec : Heap → ℕ → ℚ → ParentMap → Option (DfsRes × Heap × ParentMap))
    (r : ℕ) (g : ℚ) :
    List Move → Heap → ParentMap → WithTop ℚ → Option (DfsRes × Heap × ParentMap)
  | [], heap, parent, minCost => some (Sum.inr minCost, heap, parent)
  | mv :: rest, heap, parent, minCost =>
    let c := copyRef heap r
    match applyMoveRef c.1 c.2 mv with
    | none => none
    | some heap1 =>
      if (lookupParent parent (canon (heapGet heap1 c.2))).isSome then
        dfsGoH rec r g rest heap1 parent minCost
      else
        let parent1 := parent ++
          [(canon (heapGet heap1 c.2), (canon (heapGet heap1 r), mv))]
        match rec heap1 c.2 (g + 1) parent1 with
        | none => none
        | some (Sum.inl w, heap2, parent2) => some (Sum.inl w, heap2, parent2)
        | some (Sum.inr v, heap2, parent2) => dfsGoH rec r g rest heap2 parent2
            (min minCost v)

/-- The heap-model `_depth_first`: reads the board of cell `r`, never writes
to it. -/
def depthFirstH (h : GameMap → ℚ) (initC : Canon) (lim : ℚ) :
    ℕ → Heap → ℕ → ℚ → ParentMap → Option (DfsRes × Heap × ParentMap)
  | 0, _, _, _, _ => none
  | fuel + 1, heap, r, g, parent =>
    let state := heapGet heap r
    let f := g + h state
    if lim < f then some (Sum.inr ((f : ℚ) : WithTop ℚ), heap, parent)
    else if isSolved state then
      match reconstructPath parent initC (canon state) with
      | none => none
      | some w => some (Sum.inl w, heap, parent)
    else
      dfsGoH (fun hp rr gg par => depthFirstH h initC lim fuel hp rr gg par) r g
        (filterPossibleMoves state) heap parent ⊤

/-- The heap-model outer loop of `IDAStarSolver.solve` on the board in cell
`r`, returning the final heap alongside the answer. -/
def idaLoopH (h : GameMap → ℚ) (fd : ℕ) (r : ℕ) :
    ℕ → Heap → ℚ → Option (List Move × Heap)
  | 0, _, _ => none
  | fo + 1, heap, lim =>
    if lim < 10000 then
      match depthFirstH h (canon (heapGet heap r)) lim fd heap r 0 [] with
      | none => none
      | some (Sum.inl w, heap2, _) => some (w, heap2)
      | some (Sum.inr v, heap2, _) =>
        if v = ⊤ then some ([], heap2)
        else idaLoopH h fd r fo heap2 (v.untop' 0)
    else some ([], heap)

def idaSolveH (h : GameMap → ℚ) (fo fd : ℕ) (heap : Heap) (r : ℕ) :
    Option (List Move × Heap) :=
  idaLoopH h fd r fo heap (h (heapGet heap r))

/-- The heap-model `_perturb_initial_state`: mutates the restart copy in cell
`r` in place. -/
def perturbH (rng : Rng) : ℕ → Heap → ℕ → ℕ → Heap × ℕ
  | 0, heap, _, n => (heap, n)
  | k + 1, heap, r, n =>
    let legal := filterPossibleMoves (heapGet heap r)
    if legal = [] then (heap, n)
    else
      match applyMoveRef heap r (rngChoice rng n legal) with
      | none => (heap, n + 1)
      | some heap1 => perturbH rng k heap1 r (n + 1)

/-- The heap-model `_validate_solution`: replays on a fresh copy of the
initial cell `r0`, mutating only that fresh cell. -/
def replayRefs : List Move → Heap → ℕ → Option Heap
  | [], heap, _ => some heap
  | mv :: rest, heap, r =>
    match applyMoveRef heap r mv with
    | none => none
    | some heap1 => replayRefs rest heap1 r

def validateH (heap : Heap) (r0 : ℕ) (moves : List Move) : Bool × Heap :=
  let c := copyRef heap r0
  match replayRefs moves c.1 c.2 with
  | none => (false, c.1)
  | some heap1 => (decide (isSolved (heapGet heap1 c.2)), heap1)

open Classical in
/-- The heap-model inner annealing loop: the current state lives in cell `r`,
each candidate is a fresh copy of it, and accepted candidates become the new
current cell. -/
noncomputable def saInnerH (h : GameMap → ℚ) (r0 : ℕ) (rng : Rng) :
    ℕ → ℚ → Heap → ℕ → ℚ → List Move → ℚ → List Move → ℕ → SAInner × Heap × ℕ
  | 0, _, heap, _, _, _, bestScore, bestSeq, n => (SAInner.runEnd bestScore bestSeq, heap, n)
  | fuel + 1, temp, heap, r, score, movesSoFar, bestScore, bestSeq, n =>
    if ¬ (1 / 10 < temp) then (SAInner.runEnd bestScore bestSeq, heap, n)
    else if isSolved (heapGet heap r) then
      let v := validateH heap r0 movesSoFar
      if v.1 then (SAInner.answer movesSoFar, v.2, n)
      else (SAInner.runEnd bestScore bestSeq, v.2, n)
    else
      let legal := filterPossibleMoves (heapGet heap r)
      if legal = [] then (SAInner.runEnd bestScore bestSeq, heap, n)
      else
        let mv := rngChoice rng n legal
        let c := copyRef heap r
        match applyMoveRef c.1 c.2 mv with
        | none => (SAInner.runEnd bestScore bestSeq, heap, n)
        | some heap1 =>
          let newScore := h (heapGet heap1 c.2)
          if rng.draw (n + 1) < acceptChance (newScore - score) temp then
            let moves2 := movesSoFar ++ [mv]
            let best2 : ℚ × List Move :=
              if newScore < bestScore then (newScore, moves2) else (bestScore, bestSeq)
            saInnerH h r0 rng fuel (temp * (199 / 200)) heap1 c.2 newScore moves2
              best2.1 best2.2 (n + 2)
          else
            saInnerH h r0 rng fuel (temp * (199 / 200)) heap1 r score movesSoFar
              bestScore bestSeq (n + 2)

/-- The heap-model restart loop of `SimulatedAnnealingSolver.solve` on the
board in cell `r0`, returning the final heap alongside the answer. -/
noncomputable def saLoopH (h : GameMap → ℚ) (r0 : ℕ) (rng : Rng) :
    ℕ → WithTop ℚ → List Move → Heap → ℕ → Option (List Move × Heap)
  | 0, _, _, _, _ => none
  | r + 1, lastBest, overallBest, heap, n =>
    let c := copyRef heap r0
    let p := perturbH rng (perturbCount lastBest) c.1 c.2 n
    let score := h (heapGet p.1 c.2)
    let res := saInnerH h r0 rng 100000 1000 p.1 c.2 score [] score [] p.2
    match res.1 with
    | SAInner.answer w => some (w, res.2.1)
    | SAInner.runEnd bestScore bestSeq =>
      if overallBest = [] ∨ (bestSeq ≠ [] ∧ bestSeq.length < overallBest.length) then
        let v := validateH res.2.1 r0 bestSeq
        let overall2 := if v.1 then bestSeq else overallBest
        if overall2 ≠ [] then some (overall2, v.2)
        else saLoopH h r0 rng r ((bestScore : ℚ) : WithTop ℚ) overall2 v.2 res.2.2
      else
        if overallBest ≠ [] then some (overallBest, res.2.1)
        else saLoopH h r0 rng r ((bestScore : ℚ) : WithTop ℚ) overallBest res.2.1 res.2.2

noncomputable def saSolveH (h : GameMap → ℚ) (rng : Rng) (restarts : ℕ)
    (heap : Heap) (r0 : ℕ) : Option (List Move × Heap) :=
  saLoopH h r0 rng restarts ⊤ [] heap 0

/-- All cells of the first heap survive into the second: the heap only grew,
and every old cell holds the same board. -/
def HeapPreserves (heap heap2 : Heap) : Prop :=
  heap.length ≤ heap2.length ∧
    ∀ i, i < heap.length → heapGet heap2 i = heapGet heap i

lemma heapPreserves_refl (heap : Heap) : HeapPreserves heap heap :=
  ⟨le_rfl, fun _ _ => rfl⟩

lemma heapPreserves_trans {h1 h2 h3 : Heap} (a : HeapPreserves h1 h2)
    (b : HeapPreserves h2 h3) : HeapPreserves h1 h3 :=
  ⟨a.1.trans b.1, fun i hi => (b.2 i (lt_of_lt_of_le hi a.1)).trans (a.2 i hi)⟩

lemma copyRef_preserves (heap : Heap) (r : ℕ) : HeapPreserves heap (copyRef heap r).1 := by
  refine ⟨by simp [copyRef], fun i hi => ?_⟩
  unfold copyRef heapGet
  simp [List.getD_eq_getElem?_getD, List.getElem?_append_left hi]

lemma applyMoveRef_frame {heap heap1 : Heap} {r : ℕ} {mv : Move}
    (h : applyMoveRef heap r mv = some heap1) :
    heap1.length = heap.length ∧ ∀ i, i ≠ r → heapGet heap1 i = heapGet heap i := by
  unfold applyMoveRef at h
  cases ha : applyMove (heapGet heap r) mv with
  | none => rw [ha] at h; cases h
  | some st =>
    rw [ha] at h
    simp only [Option.some.injEq] at h
    rw [← h]
    refine ⟨by simp, fun i hi => ?_⟩
    unfold heapGet
    simp [List.getD_eq_getElem?_getD, List.getElem?_set_ne (Ne.symm hi)]

lemma copy_apply_preserves {heap heap1 : Heap} {r : ℕ} {mv : Move}
    (h : applyMoveRef (copyRef heap r).1 (copyRef heap r).2 mv = some heap1) :
    HeapPreserves heap heap1 := by
  have hc := copyRef_preserves heap r
  have hf := applyMoveRef_frame h
  refine ⟨?_, fun i hi => ?_⟩
  · calc heap.length ≤ (copyRef heap r).1.length := hc.1
      _ = heap1.length := hf.1.symm
  · have hne : i ≠ (copyRef heap r).2 := by
      unfold copyRef
      omega
    rw [hf.2 i hne, hc.2 i hi]

lemma dfsGoH_preserves
    {rec : Heap → ℕ → ℚ → ParentMap → Option (DfsRes × Heap × ParentMap)}
    (Hrec : ∀ heap r g par res heap2 par2,
      rec heap r g par = some (res, heap2, par2) → HeapPreserves heap heap2)
    (r : ℕ) (g : ℚ) :
    ∀ (moves : List Move) (heap : Heap) (parent : ParentMap) (minCost : WithTop ℚ)
      (res : DfsRes) (heap2 : Heap) (parent2 : ParentMap),
      dfsGoH rec r g moves heap parent minCost = some (res, heap2, parent2) →
      HeapPreserves heap heap2 := by
  intro moves
  induction moves with
  | nil =>
    intro heap parent minCost res heap2 parent2 heq
    have heq2 : (some (Sum.inr minCost, heap, parent) :
        Option (DfsRes × Heap × ParentMap)) = some (res, heap2, parent2) := heq
    simp only [Option.some.injEq, Prod.mk.injEq] at heq2
    rw [← heq2.2.1]
    exact heapPreserves_refl heap
  | cons mv rest ih =>
    intro heap parent minCost res heap2 parent2 heq
    cases ha : applyMoveRef (copyRef heap r).1 (copyRef heap r).2 mv with
    | none => simp only [dfsGoH, ha] at heq; cases heq
    | some heap1 =>
      have hpres1 : HeapPreserves heap heap1 := copy_apply_preserves ha
      simp only [dfsGoH, ha] at heq
      by_cases hvis : (lookupParent parent (canon (heapGet heap1 (copyRef heap r).2))).isSome
      · rw [if_pos hvis] at heq
        exact heapPreserves_trans hpres1 (ih heap1 parent minCost res heap2 parent2 heq)
      · rw [if_neg hvis] at heq
        cases hrec : rec heap1 (copyRef heap r).2 (g + 1)
            (parent ++ [(canon (heapGet heap1 (copyRef heap r).2),
              (canon (heapGet heap1 r), mv))]) with
        | none => simp only [hrec] at heq; cases heq
        | some resTriple =>
          rcases resTriple with ⟨res3, heap3, parent3⟩
          have hpres3 : HeapPreserves heap1 heap3 := Hrec _ _ _ _ _ _ _ hrec
          cases res3 with
          | inl w =>
            simp only [hrec, Option.some.injEq, Prod.mk.injEq] at heq
            rw [← heq.2.1]
            exact heapPreserves_trans hpres1 hpres3
          | inr v =>
            simp only [hrec] at heq
            exact heapPreserves_trans hpres1 (heapPreserves_trans hpres3
              (ih heap3 _ _ res heap2 parent2 heq))

lemma depthFirstH_preserves (h : GameMap → ℚ) (initC : Canon) (lim : ℚ) :
    ∀ (fuel : ℕ) (heap : Heap) (r : ℕ) (g : ℚ) (parent : ParentMap)
      (res : DfsRes) (heap2 : Heap) (parent2 : ParentMap),
      depthFirstH h initC lim fuel heap r g parent = some (res, heap2, parent2) →
      HeapPreserves heap heap2 := by
  intro fuel
  induction fuel with
  | zero => intro heap r g parent res heap2 parent2 heq; cases heq
  | succ fuel ih =>
    intro heap r g parent res heap2 parent2 heq
    simp only [depthFirstH] at heq
    by_cases hf : lim < g + h (heapGet heap r)
    · rw [if_pos hf] at heq
      simp only [Option.some.injEq, Prod.mk.injEq] at heq
      rw [← heq.2.1]
      exact heapPreserves_refl heap
    · rw [if_neg hf] at heq
      by_cases hsol : isSolved (heapGet heap r)
      · rw [if_pos hsol] at heq
        cases hrp : reconstructPath parent initC (canon (heapGet heap r)) with
        | none => rw [hrp] at heq; cases heq
        | some w =>
          rw [hrp] at heq
          simp only [Option.some.injEq, Prod.mk.injEq] at heq
          rw [← heq.2.1]
          exact heapPreserves_refl heap
      · rw [if_neg hsol] at heq
        exact dfsGoH_preserves (fun hp rr gg par res3 hp2 par2 hr =>
          ih hp rr gg par res3 hp2 par2 hr) r g _ heap parent ⊤ res heap2 parent2 heq

lemma idaLoopH_preserves (h : GameMap → ℚ) (fd : ℕ) (r : ℕ) :
    ∀ (fo : ℕ) (heap : Heap) (lim : ℚ) (w : List Move) (heap2 : Heap),
      idaLoopH h fd r fo heap lim = some (w, heap2) → HeapPreserves heap heap2 := by
  intro fo
  induction fo with
  | zero => intro heap lim w heap2 heq; cases heq
  | succ fo ih =>
    intro heap lim w heap2 heq
    simp only [idaLoopH] at heq
    by_cases h10 : lim < 10000
    · rw [if_pos h10] at heq
      cases hdfs : depthFirstH h (canon (heapGet heap r)) lim fd heap r 0 [] with
      | none => rw [hdfs] at heq; cases heq
      | some resTriple =>
        rcases resTriple with ⟨res3, heap3, parent3⟩
        have hpres3 : HeapPreserves heap heap3 :=
          depthFirstH_preserves h _ lim fd heap r 0 [] res3 heap3 parent3 hdfs
        cases res3 with
        | inl w2 =>
          simp only [hdfs, Option.some.injEq, Prod.mk.injEq] at heq
          rw [← heq.2]
          exact hpres3
        | inr v =>
          simp only [hdfs] at heq
          by_cases hv : v = ⊤
          · rw [if_pos hv] at heq
            simp only [Option.some.injEq, Prod.mk.injEq] at heq
            rw [← heq.2]
            exact hpres3
          · rw [if_neg hv] at heq
            exact heapPreserves_trans hpres3 (ih heap3 _ w heap2 heq)
    · rw [if_neg h10] at heq
      simp only [Option.some.injEq, Prod.mk.injEq] at heq
      rw [← heq.2]
      exact heapPreserves_refl heap

lemma perturbH_frame (rng : Rng) :
    ∀ (k : ℕ) (heap : Heap) (r : ℕ) (n : ℕ),
      (perturbH rng k heap r n).1.length = heap.length ∧
      ∀ i, i ≠ r → heapGet (perturbH rng k heap r n).1 i = heapGet heap i := by
  intro k
  induction k with
  | zero => intro heap r n; exact ⟨rfl, fun _ _ => rfl⟩
  | succ k ih =>
    intro heap r n
    simp only [perturbH]
    by_cases hleg : filterPossibleMoves (heapGet heap r) = []
    · rw [if_pos hleg]
      exact ⟨rfl, fun _ _ => rfl⟩
    · rw [if_neg hleg]
      cases ha : applyMoveRef heap r (rngChoice rng n (filterPossibleMoves (heapGet heap r))) with
      | none => exact ⟨rfl, fun _ _ => rfl⟩
      | some heap1 =>
        have hf := applyMoveRef_frame ha
        refine ⟨(ih heap1 r (n + 1)).1.trans hf.1, fun i hi => ?_⟩
        rw [(ih heap1 r (n + 1)).2 i hi, hf.2 i hi]

lemma replayRefs_frame :
    ∀ (moves : List Move) (heap : Heap) (r : ℕ) (heap2 : Heap),
      replayRefs moves heap r = some heap2 →
      heap2.length = heap.length ∧ ∀ i, i ≠ r → heapGet heap2 i = heapGet heap i := by
  intro moves
  induction moves with
  | nil =>
    intro heap r heap2 heq
    have heq2 : (some heap : Option Heap) = some heap2 := heq
    simp only [Option.some.injEq] at heq2
    rw [← heq2]
    exact ⟨rfl, fun _ _ => rfl⟩
  | cons mv rest ih =>
    intro heap r heap2 heq
    simp only [replayRefs] at heq
    cases ha : applyMoveRef heap r mv with
    | none => rw [ha] at heq; cases heq
    | some heap1 =>
      rw [ha] at heq
      have hf := applyMoveRef_frame ha
      have hr := ih heap1 r heap2 heq
      exact ⟨hr.1.trans hf.1, fun i hi => (hr.2 i hi).trans (hf.2 i hi)⟩

lemma validateH_preserves (heap : Heap) (r0 : ℕ) (moves : List Move) :
    HeapPreserves heap (validateH heap r0 moves).2 := by
  simp only [validateH]
  cases hrep : replayRefs moves (copyRef heap r0).1 (copyRef heap r0).2 with
  | none => simp only [hrep]; exact copyRef_preserves heap r0
  | some heap1 =>
    simp only [hrep]
    have hf := replayRefs_frame moves _ _ _ hrep
    have hc := copyRef_preserves heap r0
    refine ⟨hc.1.trans (le_of_eq hf.1.symm), fun i hi => ?_⟩
    have hne : i ≠ (copyRef heap r0).2 := by
      unfold copyRef
      omega
    rw [hf.2 i hne, hc.2 i hi]

lemma saInnerH_preserves (h : GameMap → ℚ) (r0 : ℕ) (rng : Rng) :
    ∀ (fuel : ℕ) (temp : ℚ) (heap : Heap) (r : ℕ) (score : ℚ)
      (movesSoFar : List Move) (bs : ℚ) (bseq : List Move) (n : ℕ),
      HeapPreserves heap
        (saInnerH h r0 rng fuel temp heap r score movesSoFar bs bseq n).2.1 := by
  intro fuel
  induction fuel with
  | zero => intro temp heap r score movesSoFar bs bseq n; exact heapPreserves_refl heap
  | succ fuel ih =>
    intro temp heap r score movesSoFar bs bseq n
    simp only [saInnerH]
    by_cases ht : ¬ (1 / 10 < temp)
    · rw [if_pos ht]; exact heapPreserves_refl heap
    · rw [if_neg ht]
      by_cases hsol : isSolved (heapGet heap r)
      · rw [if_pos hsol]
        by_cases hv : (validateH heap r0 movesSoFar).1
        · rw [if_pos hv]; exact validateH_preserves heap r0 movesSoFar
        · rw [if_neg hv]; exact validateH_preserves heap r0 movesSoFar
      · rw [if_neg hsol]
        by_cases hleg : filterPossibleMoves (heapGet heap r) = []
        · rw [if_pos hleg]; exact heapPreserves_refl heap
        · rw [if_neg hleg]
          cases ha : applyMoveRef (copyRef heap r).1 (copyRef heap r).2
              (rngChoice rng n (filterPossibleMoves (heapGet heap r))) with
          | none => exact heapPreserves_refl heap
          | some heap1 =>
            have hpres1 : HeapPreserves heap heap1 := copy_apply_preserves ha
            dsimp only
            by_cases hacc : rng.draw (n + 1) <
                acceptChance (h (heapGet heap1 (copyRef heap r).2) - score) temp
            · rw [if_pos hacc]
              exact heapPreserves_trans hpres1 (ih _ heap1 _ _ _ _ _ _)
            · rw [if_neg hacc]
              exact heapPreserves_trans hpres1 (ih _ heap1 _ _ _ _ _ _)

lemma saLoopH_preserves (h : GameMap → ℚ) (r0 : ℕ) (rng : Rng) :
    ∀ (r : ℕ) (lastBest : WithTop ℚ) (overallBest : List Move) (heap : Heap)
      (n : ℕ) (w : List Move) (heap2 : Heap),
      saLoopH h r0 rng r lastBest overallBest heap n = some (w, heap2) →
      HeapPreserves heap heap2 := by
  intro r
  induction r with
  | zero => intro lastBest overallBest heap n w heap2 heq; cases heq
  | succ r ih =>
    intro lastBest overallBest heap n w heap2 heq
    simp only [saLoopH] at heq
    have hcopy : HeapPreserves heap (copyRef heap r0).1 := copyRef_preserves heap r0
    have hperturb : HeapPreserves heap
        (perturbH rng (perturbCount lastBest) (copyRef heap r0).1 (copyRef heap r0).2 n).1 := by
      have hf := perturbH_frame rng (perturbCount lastBest) (copyRef heap r0).1
        (copyRef heap r0).2 n
      refine ⟨hcopy.1.trans (le_of_eq hf.1.symm), fun i hi => ?_⟩
      have hne : i ≠ (copyRef heap r0).2 := by
        unfold copyRef
        omega
      rw [hf.2 i hne, hcopy.2 i hi]
    have hinner : HeapPreserves heap
        (saInnerH h r0 rng 100000 1000
          (perturbH rng (perturbCount lastBest) (copyRef heap r0).1 (copyRef heap r0).2 n).1
          (copyRef heap r0).2
          (h (heapGet (perturbH rng (perturbCount lastBest) (copyRef heap r0).1
            (copyRef heap r0).2 n).1 (copyRef heap r0).2)) []
          (h (heapGet (perturbH rng (perturbCount lastBest) (copyRef heap r0).1
            (copyRef heap r0).2 n).1 (copyRef heap r0).2)) []
          (perturbH rng (perturbCount lastBest) (copyRef heap r0).1 (copyRef heap r0).2 n).2).2.1 :=
      heapPreserves_trans hperturb (saInnerH_preserves h r0 rng 100000 1000 _ _ _ _ _ _ _)
    cases hres : (saInnerH h r0 rng 100000 1000
        (perturbH rng (perturbCount lastBest) (copyRef heap r0).1 (copyRef heap r0).2 n).1
        (copyRef heap r0).2
        (h (heapGet (perturbH rng (perturbCount lastBest) (copyRef heap r0).1
          (copyRef heap r0).2 n).1 (copyRef heap r0).2)) []
        (h (heapGet (perturbH rng (perturbCount lastBest) (copyRef heap r0).1
          (copyRef heap r0).2 n).1 (copyRef heap r0).2)) []
        (perturbH rng (perturbCount lastBest) (copyRef heap r0).1 (copyRef heap r0).2 n).2).1 with
    | answer w2 =>
      simp only [hres] at heq
      simp only [Option.some.injEq, Prod.mk.injEq] at heq
      rw [← heq.2]
      exact hinner
    | runEnd bestScore bestSeq =>
      revert heq hres hinner
      generalize saInnerH h r0 rng 100000 1000
          (perturbH rng (perturbCount lastBest) (copyRef heap r0).1 (copyRef heap r0).2 n).1
          (copyRef heap r0).2
          (h (heapGet (perturbH rng (perturbCount lastBest) (copyRef heap r0).1
            (copyRef heap r0).2 n).1 (copyRef heap r0).2)) []
          (h (heapGet (perturbH rng (perturbCount lastBest) (copyRef heap r0).1
            (copyRef heap r0).2 n).1 (copyRef heap r0).2)) []
          (perturbH rng (perturbCount lastBest) (copyRef heap r0).1
            (copyRef heap r0).2 n).2 = K
      intro heq hinner hres
      simp only [hres] at heq
      have hval := heapPreserves_trans hinner (validateH_preserves K.2.1 r0 bestSeq)
      by_cases hcond : overallBest = [] ∨ (bestSeq ≠ [] ∧ bestSeq.length < overallBest.length)
      · rw [if_pos hcond] at heq
        by_cases hov : (if (validateH K.2.1 r0 bestSeq).1 then bestSeq else overallBest) ≠ []
        · rw [if_pos hov] at heq
          simp only [Option.some.injEq, Prod.mk.injEq] at heq
          rw [← heq.2]
          exact hval
        · rw [if_neg hov] at heq
          exact heapPreserves_trans hval (ih _ _ _ _ w heap2 heq)
      · rw [if_neg hcond] at heq
        by_cases hov : overallBest ≠ []
        · rw [if_pos hov] at heq
          simp only [Option.some.injEq, Prod.mk.injEq] at heq
          rw [← heq.2]
          exact hinner
        · rw [if_neg hov] at heq
          exact heapPreserves_trans hinner (ih _ _ _ _ w heap2 heq)

/-- C10 (confirmed): in the heap model, every `apply_move` during either
solver's `solve()` hits a cell freshly allocated by `copy()`, never the
initial board's cell: whatever answer is returned, every pre-existing heap
cell, in particular the solver's stored initial state, holds the same board
before and after the call. -/
theorem c10_initial_state_untouched :
    (∀ (h : GameMap → ℚ) (fo fd : ℕ) (heap : Heap) (r0 : ℕ) (w : List Move)
      (heap2 : Heap), idaSolveH h fo fd heap r0 = some (w, heap2) →
      ∀ i, i < heap.length → heapGet heap2 i = heapGet heap i) ∧
    (∀ (h : GameMap → ℚ) (rng : Rng) (r : ℕ) (heap : Heap) (r0 : ℕ) (w : List Move)
      (heap2 : Heap), saSolveH h rng r heap r0 = some (w, heap2) →
      ∀ i, i < heap.length → heapGet heap2 i = heapGet heap i) := by
  constructor
  · intro h fo fd heap r0 w heap2 heq i hi
    exact (idaLoopH_preserves h fd r0 fo heap (h (heapGet heap r0)) w heap2 heq).2 i hi
  · intro h rng r heap r0 w heap2 heq i hi
    exact (saLoopH_preserves h r0 rng r ⊤ [] heap 0 w heap2 heq).2 i hi

unseal Rat.add Rat.mul Rat.inv Rat.sub in
/-- C10 (witness): the heap-model IDA* solve on a one-cell heap returns, and
the initial cell still holds the original board afterward. -/
theorem c10_witness :
    (idaSolveH target_matching_heuristic 1 2 [c4Map] 0).isSome = true ∧
      heapGet ((idaSolveH target_matching_heuristic 1 2 [c4Map] 0).getD
        ([], [])).2 0 = c4Map := by
  have hsome : (idaSolveH target_matching_heuristic 1 2 [c4Map] 0).isSome = true := by
    decide
  refine ⟨hsome, ?_⟩
  rcases Option.isSome_iff_exists.mp hsome with ⟨pr, hpr⟩
  rw [hpr]
  exact c10_initial_state_untouched.1 target_matching_heuristic 1 2 [c4Map] 0
    pr.1 pr.2 (by rw [hpr]) 0 (by simp)

/-! ### Termination of the IDA* outer loop (claim C3) -/

instance : DecidableEq (WithTop ℚ) :=
  inferInstanceAs (DecidableEq (Option ℚ))

instance : DecidableEq (Canon × Canon × Move) := inferInstance

instance : DecidableEq ParentMap :=
  inferInstanceAs (DecidableEq (List (Canon × Canon × Move)))

/-- A position lies inside the grid of the given board. -/
def PosIn (init : GameMap) (q : Pos) : Prop :=
  0 ≤ q.1 ∧ q.1 < init.length ∧ 0 ≤ q.2 ∧ q.2 < init.width

instance (init : GameMap) (q : Pos) : Decidable (PosIn init q) := by
  unfold PosIn; infer_instance

/-- A well-formed board: agent and boxes inside the grid (spec section 3). -/
def ValidBoard (init : GameMap) : Prop :=
  PosIn init init.player ∧ ∀ b ∈ init.boxes, PosIn init b

/-- A canonical identity that a search rooted at `init` can produce. -/
def CanonOk (init : GameMap) (c : Canon) : Prop :=
  PosIn init c.1 ∧ c.2.length = init.boxes.length ∧ ∀ b ∈ c.2, PosIn init b

lemma applyMove_validBoard {init state next : GameMap} {mv : Move}
    (hstat : SameStatics state init) (hv : CanonOk init (canon state))
    (happ : applyMove state mv = some next) : CanonOk init (canon next) := by
  rcases hstat with ⟨hL, hW, _, _⟩
  rcases hv with ⟨hp, hlen, hb⟩
  simp only [applyMove] at happ
  split_ifs at happ with h1 h2 h3
  · rcases h2 with ⟨hib, _, _⟩
    injection happ with happ
    subst happ
    refine ⟨?_, ?_, ?_⟩
    · exact hb _ h1
    · simp only [canon, List.length_map]
      exact hlen
    · intro b hbm
      simp only [canon] at hbm
      rcases List.mem_map.mp hbm with ⟨b0, hb0, hbeq⟩
      by_cases hbd : b0 = (state.player.1 + (moveDelta mv).1, state.player.2 + (moveDelta mv).2)
      · rw [hbd] at hbeq
        simp only [if_pos rfl] at hbeq
        rw [← hbeq]
        unfold inBounds at hib
        exact ⟨hib.1, hL ▸ hib.2.1, hib.2.2.1, hW ▸ hib.2.2.2⟩
      · rw [if_neg hbd] at hbeq
        rw [← hbeq]
        exact hb b0 hb0
  · rcases h3 with ⟨hib, _⟩
    injection happ with happ
    subst happ
    refine ⟨?_, hlen, hb⟩
    unfold inBounds at hib
    exact ⟨hib.1, hL ▸ hib.2.1, hib.2.2.1, hW ▸ hib.2.2.2⟩

/-- Base-`P` value of a digit list, most significant digit first. -/
def digitsValFrom (P : ℕ) (acc : ℕ) (ds : List ℕ) : ℕ :=
  ds.foldl (fun a d => a * P + d) acc

lemma digitsValFrom_lt (P : ℕ) :
    ∀ (ds : List ℕ) (acc : ℕ), (∀ d ∈ ds, d < P) →
      digitsValFrom P acc ds < (acc + 1) * P ^ ds.length := by
  intro ds
  induction ds with
  | nil => intro acc _; simp [digitsValFrom]
  | cons d ds ih =>
    intro acc hd
    have hdP : d < P := hd d (by simp)
    have hP : 0 < P := by omega
    have h1 : digitsValFrom P (acc * P + d) ds < (acc * P + d + 1) * P ^ ds.length :=
      ih (acc * P + d) (fun x hx => hd x (by simp [hx]))
    have h2 : (acc * P + d + 1) * P ^ ds.length ≤ (acc + 1) * P ^ (d :: ds).length := by
      simp only [List.length_cons, pow_succ]
      have : acc * P + d + 1 ≤ (acc + 1) * P := by nlinarith
      calc (acc * P + d + 1) * P ^ ds.length ≤ ((acc + 1) * P) * P ^ ds.length :=
            Nat.mul_le_mul_right _ this
        _ = (acc + 1) * (P ^ ds.length * P) := by ring
    exact lt_of_lt_of_le h1 h2

lemma digitsValFrom_inj (P : ℕ) :
    ∀ (ds₁ ds₂ : List ℕ) (acc₁ acc₂ : ℕ), ds₁.length = ds₂.length →
      (∀ d ∈ ds₁, d < P) → (∀ d ∈ ds₂, d < P) →
      digitsValFrom P acc₁ ds₁ = digitsValFrom P acc₂ ds₂ →
      acc₁ = acc₂ ∧ ds₁ = ds₂ := by
  intro ds₁
  induction ds₁ with
  | nil =>
    intro ds₂ acc₁ acc₂ hlen _ _ heq
    cases ds₂ with
    | nil => exact ⟨heq, rfl⟩
    | cons d ds => simp at hlen
  | cons d₁ ds₁ ih =>
    intro ds₂ acc₁ acc₂ hlen hd₁ hd₂ heq
    cases ds₂ with
    | nil => simp at hlen
    | cons d₂ ds₂ =>
      simp only [List.length_cons, Nat.succ.injEq] at hlen
      have hstep := ih ds₂ (acc₁ * P + d₁) (acc₂ * P + d₂) hlen
        (fun x hx => hd₁ x (by simp [hx])) (fun x hx => hd₂ x (by simp [hx])) heq
      have hd1P : d₁ < P := hd₁ d₁ (by simp)
      have hd2P : d₂ < P := hd₂ d₂ (by simp)
      have hacc : acc₁ = acc₂ ∧ d₁ = d₂ := by
        have h := hstep.1
        rcases Nat.lt_trichotomy acc₁ acc₂ with hc | hc | hc
        · exfalso
          have : acc₁ * P + d₁ < acc₂ * P + d₂ := by
            have : acc₁ * P + P ≤ acc₂ * P := by
              have := Nat.succ_le_of_lt hc
              nlinarith
            omega
          omega
        · refine ⟨hc, ?_⟩
          rw [hc] at h
          omega
        · exfalso
          have : acc₂ * P + d₂ < acc₁ * P + d₁ := by
            have : acc₂ * P + P ≤ acc₁ * P := by
              have := Nat.succ_le_of_lt hc
              nlinarith
            omega
          omega
      exact ⟨hacc.1, by rw [hacc.2, hstep.2]⟩

/-- Index of an in-grid position, an injective map into `Finset.range P`. -/
def posIdx (init : GameMap) (q : Pos) : ℕ :=
  q.1.toNat * init.width.toNat + q.2.toNat

/-- The number of grid cells. -/
def gridCard (init : GameMap) : ℕ := init.length.toNat * init.width.toNat

lemma posIdx_lt {init : GameMap} {q : Pos} (hq : PosIn init q) :
    posIdx init q < gridCard init := by
  rcases hq with ⟨h1, h2, h3, h4⟩
  unfold posIdx gridCard
  have hx : q.1.toNat < init.length.toNat := by omega
  have hy : q.2.toNat < init.width.toNat := by omega
  calc q.1.toNat * init.width.toNat + q.2.toNat
      < q.1.toNat * init.width.toNat + init.width.toNat := by omega
    _ = (q.1.toNat + 1) * init.width.toNat := by ring
    _ ≤ init.length.toNat * init.width.toNat :=
        Nat.mul_le_mul_right _ (Nat.succ_le_of_lt hx)

lemma posIdx_inj {init : GameMap} {q q' : Pos} (hq : PosIn init q) (hq' : PosIn init q')
    (h : posIdx init q = posIdx init q') : q = q' := by
  rcases hq with ⟨h1, h2, h3, h4⟩
  rcases hq' with ⟨h1', h2', h3', h4'⟩
  unfold posIdx at h
  have hy : q.2.toNat < init.width.toNat := by omega
  have hy' : q'.2.toNat < init.width.toNat := by omega
  have hxy : q.1.toNat = q'.1.toNat ∧ q.2.toNat = q'.2.toNat := by
    rcases Nat.lt_trichotomy q.1.toNat q'.1.toNat with hc | hc | hc
    · exfalso
      have : q.1.toNat * init.width.toNat + init.width.toNat ≤
          q'.1.toNat * init.width.toNat := by
        have := Nat.succ_le_of_lt hc
        nlinarith
      omega
    · rw [hc] at h
      omega
    · exfalso
      have : q'.1.toNat * init.width.toNat + init.width.toNat ≤
          q.1.toNat * init.width.toNat := by
        have := Nat.succ_le_of_lt hc
        nlinarith
      omega
  have : q.1 = q'.1 := by omega
  have : q.2 = q'.2 := by omega
  exact Prod.ext (by omega) (by omega)

/-- Injective numeric encoding of a canonical identity. -/
def encodeCanon (init : GameMap) (c : Canon) : ℕ :=
  digitsValFrom (gridCard init) 0 (posIdx init c.1 :: c.2.map (posIdx init))

/-- The bound on the number of distinct canonical identities. -/
def canonBound (init : GameMap) : ℕ :=
  gridCard init ^ (init.boxes.length + 1)

lemma encodeCanon_lt {init : GameMap} {c : Canon} (hc : CanonOk init c) :
    encodeCanon init c < canonBound init := by
  rcases hc with ⟨hp, hlen, hb⟩
  have := digitsValFrom_lt (gridCard init)
    (posIdx init c.1 :: c.2.map (posIdx init)) 0
    (by
      intro d hd
      simp only [List.mem_cons, List.mem_map] at hd
      rcases hd with hd | ⟨b, hbm, hbe⟩
      · rw [hd]; exact posIdx_lt hp
      · rw [← hbe]; exact posIdx_lt (hb b hbm))
  simpa [encodeCanon, canonBound, hlen] using this

lemma map_posIdx_inj (init : GameMap) :
    ∀ (l l' : List Pos), (∀ b ∈ l, PosIn init b) → (∀ b ∈ l', PosIn init b) →
      l.map (posIdx init) = l'.map (posIdx init) → l = l' := by
  intro l
  induction l with
  | nil =>
    intro l' _ _ h
    cases l' with
    | nil => rfl
    | cons x xs => simp at h
  | cons b bs ih =>
    intro l' hl hl' h
    cases l' with
    | nil => simp at h
    | cons b' bs' =>
      simp only [List.map_cons, List.cons.injEq] at h
      have hbeq : b = b' := posIdx_inj (hl b (by simp)) (hl' b' (by simp)) h.1
      have hrest : bs = bs' := ih bs' (fun x hx => hl x (by simp [hx]))
        (fun x hx => hl' x (by simp [hx])) h.2
      rw [hbeq, hrest]

lemma encodeCanon_inj {init : GameMap} {c c' : Canon} (hc : CanonOk init c)
    (hc' : CanonOk init c') (h : encodeCanon init c = encodeCanon init c') : c = c' := by
  rcases hc with ⟨hp, hlen, hb⟩
  rcases hc' with ⟨hp', hlen', hb'⟩
  have hinj := digitsValFrom_inj (gridCard init)
    (posIdx init c.1 :: c.2.map (posIdx init))
    (posIdx init c'.1 :: c'.2.map (posIdx init)) 0 0
    (by simp [hlen, hlen'])
    (by
      intro d hd
      simp only [List.mem_cons, List.mem_map] at hd
      rcases hd with hd | ⟨b, hbm, hbe⟩
      · rw [hd]; exact posIdx_lt hp
      · rw [← hbe]; exact posIdx_lt (hb b hbm))
    (by
      intro d hd
      simp only [List.mem_cons, List.mem_map] at hd
      rcases hd with hd | ⟨b, hbm, hbe⟩
      · rw [hd]; exact posIdx_lt hp'
      · rw [← hbe]; exact posIdx_lt (hb' b hbm))
    h
  have hhead : c.1 = c'.1 := by
    have := List.head_eq_of_cons_eq hinj.2
    exact posIdx_inj hp hp' this
  have htail : c.2.map (posIdx init) = c'.2.map (posIdx init) :=
    List.tail_eq_of_cons_eq hinj.2
  have hboxes : c.2 = c'.2 := map_posIdx_inj init c.2 c'.2 hb hb' htail
  exact Prod.ext hhead hboxes

/-- The parent-map keys are pairwise distinct, reachable canonical
identities. -/
def KeysOk (init : GameMap) (parent : ParentMap) : Prop :=
  (parent.map Prod.fst).Nodup ∧ ∀ c ∈ parent.map Prod.fst, CanonOk init c

lemma keysOk_nil (init : GameMap) : KeysOk init [] := by
  constructor
  · exact List.nodup_nil
  · intro c hc; simp at hc

lemma parent_length_le_canonBound {init : GameMap} {parent : ParentMap}
    (h : KeysOk init parent) : parent.length ≤ canonBound init := by
  have hinj : ∀ x ∈ parent.map Prod.fst, ∀ y ∈ parent.map Prod.fst,
      encodeCanon init x = encodeCanon init y → x = y := by
    intro x hx y hy hxy
    exact encodeCanon_inj (h.2 x hx) (h.2 y hy) hxy
  have hnodup : ((parent.map Prod.fst).map (encodeCanon init)).Nodup :=
    h.1.map_on hinj
  have hsub : ((parent.map Prod.fst).map (encodeCanon init)).toFinset ⊆
      Finset.range (canonBound init) := by
    intro x hx
    rw [List.mem_toFinset] at hx
    rcases List.mem_map.mp hx with ⟨c, hc, hce⟩
    rw [Finset.mem_range, ← hce]
    exact encodeCanon_lt (h.2 c hc)
  have hcard := Finset.card_le_card hsub
  rw [List.toFinset_card_of_nodup hnodup, Finset.card_range] at hcard
  simpa using hcard

/-- The depth-first call returns (no fuel exhaustion), the parent map only
grows, and its keys stay well-formed. -/
def DfsTotal (init : GameMap) (parent : ParentMap)
    (res : Option (DfsRes × ParentMap)) : Prop :=
  ∃ r parent2, res = some (r, parent2) ∧ ListExtends parent parent2 ∧
    KeysOk init parent2 ∧ ParentInv init parent2

lemma dfsGo_total {init : GameMap} {fuel : ℕ}
    {rec : GameMap → ℚ → ParentMap → Option (DfsRes × ParentMap)}
    (Hrec : ∀ st gg par, ParentInv init par → PathOk init par (canon st) →
      SameStatics st init → KeysOk init par → CanonOk init (canon st) →
      canonBound init + 1 ≤ fuel + par.length → DfsTotal init par (rec st gg par))
    (state : GameMap) (g : ℚ) (hstat : SameStatics state init)
    (hcanon : CanonOk init (canon state)) :
    ∀ (moves : List Move) (parent : ParentMap) (minCost : WithTop ℚ),
      (∀ mv ∈ moves, (applyMove state mv).isSome) →
      ParentInv init parent → PathOk init parent (canon state) →
      KeysOk init parent →
      canonBound init + 1 ≤ (fuel + 1) + parent.length →
      DfsTotal init parent (dfsGo rec state g moves parent minCost) := by
  intro moves
  induction moves with
  | nil =>
    intro parent minCost _ hinv _ hkeys _
    exact ⟨Sum.inr minCost, parent, rfl, listExtends_refl parent, hkeys, hinv⟩
  | cons mv rest ih =>
    intro parent minCost hmoves hinv hcur hkeys hbound
    have happs : (applyMove state mv).isSome := hmoves mv (by simp)
    rcases Option.isSome_iff_exists.mp happs with ⟨next, happ⟩
    have hrest : ∀ m ∈ rest, (applyMove state m).isSome :=
      fun m hm => hmoves m (by simp [hm])
    by_cases hvis : (lookupParent parent (canon next)).isSome
    · have heq : dfsGo rec state g (mv :: rest) parent minCost =
          dfsGo rec state g rest parent minCost := by
        simp only [dfsGo, happ]
        rw [if_pos hvis]
      rw [heq]
      exact ih parent minCost hrest hinv hcur hkeys hbound
    · have hfresh : canon next ∉ parent.map Prod.fst := by
        rw [← lookupParent_eq_none_iff]
        exact Option.not_isSome_iff_eq_none.mp hvis
      have hext1 : ListExtends parent
          (parent ++ [(canon next, (canon state, mv))]) := ⟨_, rfl⟩
      have hnext1 : PathOk init (parent ++ [(canon next, (canon state, mv))])
          (canon next) := pathOk_snoc hcur hstat happ hfresh
      have hinv1 : ParentInv init (parent ++ [(canon next, (canon state, mv))]) := by
        intro c hc
        simp only [List.map_append, List.map_cons, List.map_nil,
          List.mem_append, List.mem_singleton] at hc
        rcases hc with hc | hc
        · exact pathOk_extends hext1 (hinv c hc)
        · rw [hc]
          exact hnext1
      have hcur1 : PathOk init (parent ++ [(canon next, (canon state, mv))])
          (canon state) := pathOk_extends hext1 hcur
      have hcanonN : CanonOk init (canon next) :=
        applyMove_validBoard hstat hcanon happ
      have hkeys1 : KeysOk init (parent ++ [(canon next, (canon state, mv))]) := by
        constructor
        · simp only [List.map_append, List.map_cons, List.map_nil]
          rw [List.nodup_append]
          exact ⟨hkeys.1, List.nodup_singleton _, by
            intro a ha hb
            simp only [List.mem_singleton] at hb
            rw [hb] at ha
            exact hfresh ha⟩
        · intro c hc
          simp only [List.map_append, List.map_cons, List.map_nil,
            List.mem_append, List.mem_singleton] at hc
          rcases hc with hc | hc
          · exact hkeys.2 c hc
          · rw [hc]; exact hcanonN
      have hstatn : SameStatics next init :=
        sameStatics_trans (applyMove_statics happ) hstat
      have hbound1 : canonBound init + 1 ≤
          fuel + (parent ++ [(canon next, (canon state, mv))]).length := by
        simp only [List.length_append, List.length_cons, List.length_nil]
        omega
      rcases Hrec next (g + 1) _ hinv1 hnext1 hstatn hkeys1 hcanonN hbound1 with
        ⟨res2, parent2, hrec, hext2, hkeys2, hinv2⟩
      cases res2 with
      | inl w =>
        refine ⟨Sum.inl w, parent2, ?_, listExtends_trans hext1 hext2, hkeys2, hinv2⟩
        simp only [dfsGo, happ]
        rw [if_neg hvis]
        simp only [hrec]
      | inr v =>
        have heq : dfsGo rec state g (mv :: rest) parent minCost =
            dfsGo rec state g rest parent2 (min minCost v) := by
          simp only [dfsGo, happ]
          rw [if_neg hvis]
          simp only [hrec]
        rw [heq]
        have hextfull := listExtends_trans hext1 hext2
        have hbound2 : canonBound init + 1 ≤ (fuel + 1) + parent2.length := by
          rcases hextfull with ⟨t, ht⟩
          rw [ht]
          simp only [List.length_append]
          omega
        have hres := ih parent2 (min minCost v) hrest hinv2
          (pathOk_extends hextfull hcur) hkeys2 hbound2
        rcases hres with ⟨r3, parent3, hres3, hext3, hkeys3, hinv3⟩
        exact ⟨r3, parent3, hres3, listExtends_trans hextfull hext3, hkeys3, hinv3⟩

lemma depthFirst_total (init : GameMap) (h : GameMap → ℚ) (lim : ℚ) :
    ∀ (fuel : ℕ) (state : GameMap) (g : ℚ) (parent : ParentMap),
      ParentInv init parent → PathOk init parent (canon state) →
      SameStatics state init → KeysOk init parent → CanonOk init (canon state) →
      canonBound init + 1 ≤ fuel + parent.length →
      DfsTotal init parent (depthFirst h (canon init) lim fuel state g parent) := by
  intro fuel
  induction fuel with
  | zero =>
    intro state g parent _ _ _ hkeys _ hbound
    have := parent_length_le_canonBound hkeys
    omega
  | succ fuel ih =>
    intro state g parent hinv hcur hstat hkeys hcanon hbound
    by_cases hf : lim < g + h state
    · refine ⟨Sum.inr ((g + h state : ℚ) : WithTop ℚ), parent, ?_,
        listExtends_refl parent, hkeys, hinv⟩
      simp only [depthFirst]
      rw [if_pos hf]
    · by_cases hsol : isSolved state
      · rcases hcur with ⟨w, s, hrec, hrep, hcanon2⟩
        refine ⟨Sum.inl w, parent, ?_, listExtends_refl parent, hkeys, hinv⟩
        simp only [depthFirst]
        rw [if_neg hf, if_pos hsol]
        simp only [hrec]
      · have heq : depthFirst h (canon init) lim (fuel + 1) state g parent =
            dfsGo (fun st gg par => depthFirst h (canon init) lim fuel st gg par)
              state g (filterPossibleMoves state) parent ⊤ := by
          simp only [depthFirst]
          rw [if_neg hf, if_neg hsol]
        rw [heq]
        refine dfsGo_total (fun st gg par a b c d e f => ih st gg par a b c d e f)
          state g hstat hcanon (filterPossibleMoves state) parent ⊤ ?_ hinv hcur
          hkeys hbound
        intro mv hm
        exact (List.mem_filter.mp hm).2

/-- A rational that is an integer multiple of one tenth: the granularity of
every value `target_matching_heuristic` can produce. -/
def Tenth (q : ℚ) : Prop := ∃ z : ℤ, q * 10 = (z : ℚ)

lemma tenth_add {a b : ℚ} (ha : Tenth a) (hb : Tenth b) : Tenth (a + b) := by
  rcases ha with ⟨za, hza⟩
  rcases hb with ⟨zb, hzb⟩
  exact ⟨za + zb, by push_cast; rw [add_mul, hza, hzb]⟩

lemma tenth_intCast (z : ℤ) : Tenth ((z : ℚ)) := ⟨z * 10, by push_cast; ring⟩

lemma tenth_ite (c : Prop) [Decidable c] {a b : ℚ} (ha : Tenth a) (hb : Tenth b) :
    Tenth (if c then a else b) := by
  split_ifs
  · exact ha
  · exact hb

lemma tenth_dist_term (d : ℤ) : Tenth ((d : ℚ) * (5 / 2)) :=
  ⟨25 * d, by push_cast; ring⟩

lemma tmGo_tenth (state : GameMap) :
    ∀ (bs pool : List Pos) (total : ℚ), Tenth total →
      Tenth (tmGo state bs pool total) := by
  intro bs
  induction bs with
  | nil => intro pool total ht; simpa [tmGo] using ht
  | cons b bs ih =>
    intro pool total ht
    simp only [tmGo]
    cases hmin : pyMinBy (fun t => manhattan_distance b.1 b.2 t.1 t.2) pool with
    | none =>
      exact ih _ _ (tenth_ite _ (tenth_add (tenth_ite _ (tenth_add (tenth_ite _
        (tenth_add ht ⟨15000, by norm_num⟩) ht) ⟨800, by norm_num⟩)
        (tenth_ite _ (tenth_add ht ⟨15000, by norm_num⟩) ht)) ⟨1500, by norm_num⟩)
        (tenth_ite _ (tenth_add (tenth_ite _ (tenth_add ht ⟨15000, by norm_num⟩) ht)
          ⟨800, by norm_num⟩) (tenth_ite _ (tenth_add ht ⟨15000, by norm_num⟩) ht)))
    | some best =>
      have ht0 : Tenth (total + ((manhattan_distance b.1 b.2 best.1 best.2 : ℤ) : ℚ)
          * (5 / 2)) := tenth_add ht (tenth_dist_term _)
      exact ih _ _ (tenth_ite _ (tenth_add (tenth_ite _ (tenth_add (tenth_ite _
        (tenth_add ht0 ⟨15000, by norm_num⟩) ht0) ⟨800, by norm_num⟩)
        (tenth_ite _ (tenth_add ht0 ⟨15000, by norm_num⟩) ht0)) ⟨1500, by norm_num⟩)
        (tenth_ite _ (tenth_add (tenth_ite _ (tenth_add ht0 ⟨15000, by norm_num⟩) ht0)
          ⟨800, by norm_num⟩) (tenth_ite _ (tenth_add ht0 ⟨15000, by norm_num⟩) ht0)))

lemma target_matching_tenth (state : GameMap) :
    Tenth (target_matching_heuristic state) := by
  unfold target_matching_heuristic
  cases hb : unplacedBoxes state with
  | nil =>
    exact tenth_add (tmGo_tenth state [] _ 0 ⟨0, by norm_num⟩)
      ⟨state.explored_states, by push_cast; ring⟩
  | cons b bs =>
    exact tenth_add (tenth_add (tmGo_tenth state _ _ 0 ⟨0, by norm_num⟩)
      (tenth_intCast _)) ⟨state.explored_states, by push_cast; ring⟩

lemma manhattan_nonneg (x1 y1 x2 y2 : ℤ) : 0 ≤ manhattan_distance x1 y1 x2 y2 := by
  unfold manhattan_distance
  positivity

lemma ite_nonneg {c : Prop} [Decidable c] {a b : ℚ} (ha : 0 ≤ a) (hb : 0 ≤ b) :
    (0 : ℚ) ≤ if c then a else b := by
  split_ifs
  · exact ha
  · exact hb

lemma tmGo_nonneg (state : GameMap) :
    ∀ (bs pool : List Pos) (total : ℚ), 0 ≤ total →
      0 ≤ tmGo state bs pool total := by
  intro bs
  induction bs with
  | nil => intro pool total ht; simpa [tmGo] using ht
  | cons b bs ih =>
    intro pool total ht
    simp only [tmGo]
    cases hmin : pyMinBy (fun t => manhattan_distance b.1 b.2 t.1 t.2) pool with
    | none =>
      have h1 : (0 : ℚ) ≤ if is_deadlock state b.1 b.2 then total + 1500 else total :=
        ite_nonneg (by linarith) ht
      have h2 : (0 : ℚ) ≤ if is_tunnel state b.1 b.2 ∧ b ∉ state.targets then
          (if is_deadlock state b.1 b.2 then total + 1500 else total) + 80
          else (if is_deadlock state b.1 b.2 then total + 1500 else total) :=
        ite_nonneg (by linarith) h1
      exact ih _ _ (ite_nonneg (by linarith) h2)
    | some best =>
      have hd : (0 : ℚ) ≤ ((manhattan_distance b.1 b.2 best.1 best.2 : ℤ) : ℚ) * (5 / 2) := by
        have := manhattan_nonneg b.1 b.2 best.1 best.2
        positivity
      have ht0 : (0 : ℚ) ≤ total + ((manhattan_distance b.1 b.2 best.1 best.2 : ℤ) : ℚ)
          * (5 / 2) := by linarith
      have h1 : (0 : ℚ) ≤ if is_deadlock state b.1 b.2 then
          (total + ((manhattan_distance b.1 b.2 best.1 best.2 : ℤ) : ℚ) * (5 / 2)) + 1500
          else total + ((manhattan_distance b.1 b.2 best.1 best.2 : ℤ) : ℚ) * (5 / 2) :=
        ite_nonneg (by linarith) ht0
      have h2 : (0 : ℚ) ≤ if is_tunnel state b.1 b.2 ∧ b ∉ state.targets then
          (if is_deadlock state b.1 b.2 then
            (total + ((manhattan_distance b.1 b.2 best.1 best.2 : ℤ) : ℚ) * (5 / 2)) + 1500
            else total + ((manhattan_distance b.1 b.2 best.1 best.2 : ℤ) : ℚ) * (5 / 2)) + 80
          else (if is_deadlock state b.1 b.2 then
            (total + ((manhattan_distance b.1 b.2 best.1 best.2 : ℤ) : ℚ) * (5 / 2)) + 1500
            else total + ((manhattan_distance b.1 b.2 best.1 best.2 : ℤ) : ℚ) * (5 / 2)) :=
        ite_nonneg (by linarith) h1
      exact ih _ _ (ite_nonneg (by linarith) h2)

lemma foldl_min_dist_nonneg (px py : ℤ) :
    ∀ (bs : List Pos) (a : ℤ), 0 ≤ a →
      0 ≤ bs.foldl (fun acc c => min acc (manhattan_distance px py c.1 c.2)) a := by
  intro bs
  induction bs with
  | nil => intro a ha; simpa using ha
  | cons c cs ih =>
    intro a ha
    simp only [List.foldl_cons]
    exact ih _ (le_min ha (manhattan_nonneg _ _ _ _))

lemma target_matching_nonneg (state : GameMap) :
    0 ≤ target_matching_heuristic state := by
  unfold target_matching_heuristic
  have he : (0 : ℚ) ≤ (state.explored_states : ℚ) * (1 / 10) := by positivity
  cases hb : unplacedBoxes state with
  | nil =>
    have h1 := tmGo_nonneg state [] state.targets.dedup 0 le_rfl
    simp only []
    linarith
  | cons b bs =>
    have h1 := tmGo_nonneg state (b :: bs) state.targets.dedup 0 le_rfl
    have h2 : (0 : ℚ) ≤ ((bs.foldl
        (fun acc c => min acc (manhattan_distance state.player.1 state.player.2 c.1 c.2))
        (manhattan_distance state.player.1 state.player.2 b.1 b.2) : ℤ) : ℚ) := by
      have := foldl_min_dist_nonneg state.player.1 state.player.2 bs
        (manhattan_distance state.player.1 state.player.2 b.1 b.2)
        (manhattan_nonneg _ _ _ _)
      exact_mod_cast this
    simp only []
    linarith

/-- Two distinct tenth-granular rationals differ by at least one tenth. -/
lemma tenth_gap {a b : ℚ} (ha : Tenth a) (hb : Tenth b) (hab : a < b) :
    a + 1 / 10 ≤ b := by
  rcases ha with ⟨za, hza⟩
  rcases hb with ⟨zb, hzb⟩
  have h10 : (0 : ℚ) < 10 := by norm_num
  have h1 : a * 10 < b * 10 := mul_lt_mul_of_pos_right hab h10
  rw [hza, hzb] at h1
  have h2 : za < zb := by exact_mod_cast h1
  have h4 : (a + 1 / 10) * 10 ≤ b * 10 := by
    rw [add_mul, hza, hzb]
    have h5 : ((1 : ℚ) / 10) * 10 = 1 := by norm_num
    rw [h5]
    exact_mod_cast Int.add_one_le_iff.mpr h2
  exact le_of_mul_le_mul_right h4 h10

/-- A `WithTop ℚ` value whose finite content, if any, is tenth-granular. -/
def TenthW (v : WithTop ℚ) : Prop := ∀ q : ℚ, v = (q : WithTop ℚ) → Tenth q

lemma tenthW_top : TenthW (⊤ : WithTop ℚ) := by
  intro q hq
  exact absurd hq (by simp)

lemma tenthW_coe {q : ℚ} (h : Tenth q) : TenthW ((q : ℚ) : WithTop ℚ) := by
  intro p hp
  have : q = p := by exact_mod_cast hp
  rw [← this]
  exact h

lemma tenthW_min {a b : WithTop ℚ} (ha : TenthW a) (hb : TenthW b) :
    TenthW (min a b) := by
  rcases min_choice a b with h | h <;> rw [h]
  · exact ha
  · exact hb

lemma dfsGo_inr_tenth {rec : GameMap → ℚ → ParentMap → Option (DfsRes × ParentMap)}
    {state : GameMap} {g : ℚ} (hg : Tenth g)
    (Hrec : ∀ st gg par v par2, Tenth gg → rec st gg par = some (Sum.inr v, par2) →
      TenthW v) :
    ∀ (moves : List Move) (parent : ParentMap) (minCost : WithTop ℚ),
      TenthW minCost →
      ∀ v par2, dfsGo rec state g moves parent minCost = some (Sum.inr v, par2) →
        TenthW v := by
  intro moves
  induction moves with
  | nil =>
    intro parent minCost hmc v par2 hres
    simp only [dfsGo, Option.some.injEq, Prod.mk.injEq, Sum.inr.injEq] at hres
    rw [← hres.1]
    exact hmc
  | cons mv rest ih =>
    intro parent minCost hmc v par2 hres
    cases happ : applyMove state mv with
    | none => simp only [dfsGo, happ] at hres; cases hres
    | some next =>
      simp only [dfsGo, happ] at hres
      by_cases hvis : (lookupParent parent (canon next)).isSome
      · rw [if_pos hvis] at hres
        exact ih parent minCost hmc v par2 hres
      · rw [if_neg hvis] at hres
        cases hrec : rec next (g + 1) (parent ++ [(canon next, canon state, mv)]) with
        | none => simp only [hrec] at hres; cases hres
        | some resPair =>
          rcases resPair with ⟨res, parent2⟩
          cases res with
          | inl w => simp only [hrec] at hres; cases hres
          | inr v2 =>
            simp only [hrec] at hres
            have hv2 := Hrec next (g + 1) _ v2 parent2
              (tenth_add hg ⟨10, by norm_num⟩) hrec
            exact ih parent2 (min minCost v2) (tenthW_min hmc hv2) v par2 hres

lemma depthFirst_inr_tenth (h : GameMap → ℚ) (Hh : ∀ s, Tenth (h s))
    (initC : Canon) (lim : ℚ) :
    ∀ (fuel : ℕ) (state : GameMap) (g : ℚ) (parent : ParentMap)
      (v : WithTop ℚ) (par2 : ParentMap), Tenth g →
      depthFirst h initC lim fuel state g parent = some (Sum.inr v, par2) →
      TenthW v := by
  intro fuel
  induction fuel with
  | zero => intro state g parent v par2 _ hres; cases hres
  | succ fuel ih =>
    intro state g parent v par2 hg hres
    simp only [depthFirst] at hres
    by_cases hf : lim < g + h state
    · rw [if_pos hf] at hres
      simp only [Option.some.injEq, Prod.mk.injEq, Sum.inr.injEq] at hres
      rw [← hres.1]
      exact tenthW_coe (tenth_add hg (Hh state))
    · rw [if_neg hf] at hres
      by_cases hsol : isSolved state
      · rw [if_pos hsol] at hres
        cases hrp : reconstructPath parent initC (canon state) with
        | none => rw [hrp] at hres; cases hres
        | some w => rw [hrp] at hres; simp at hres
      · rw [if_neg hsol] at hres
        exact dfsGo_inr_tenth hg
          (fun st gg par v2 p2 hgg hr => ih st gg par v2 p2 hgg hr) _ _ _
          tenthW_top v par2 hres

/-- One outer iteration of `IDAStarSolver.solve` at limit `l₁ < 10000` whose
depth-first pass returned the finite minimum `l₂`; the reflexive-transitive
closure of this step describes every limit the outer loop can reach. -/
inductive LimitReaches (h : GameMap → ℚ) (fd : ℕ) (init : GameMap) : ℚ → ℚ → Prop where
  | refl (l : ℚ) : LimitReaches h fd init l l
  | step (l₁ l₂ l₃ : ℚ) (par : ParentMap) (hlt : l₁ < 10000)
      (hdfs : depthFirst h (canon init) l₁ fd init 0 [] =
        some (Sum.inr ((l₂ : ℚ) : WithTop ℚ), par))
      (htail : LimitReaches h fd init l₂ l₃) : LimitReaches h fd init l₁ l₃

/-- A depth-first pass at limit `l` whose pruned minimum is infinite. -/
def TopPass (h : GameMap → ℚ) (fd : ℕ) (init : GameMap) (l : ℚ) : Prop :=
  ∃ par, depthFirst h (canon init) l fd init 0 [] =
    some (Sum.inr (⊤ : WithTop ℚ), par)

/-- The circumstances under which `IDAStarSolver.solve` answers `[]`: the
start state is already solved, or some reached limit hits the 10000 ceiling,
or some reached limit's pass prunes everything to infinity. -/
def EmptyReason (h : GameMap → ℚ) (fd : ℕ) (init : GameMap) : Prop :=
  isSolved init ∨ ∃ l, LimitReaches h fd init (h init) l ∧
    (10000 ≤ l ∨ TopPass h fd init l)

lemma limitReaches_snoc {h : GameMap → ℚ} {fd : ℕ} {init : GameMap} {a b c : ℚ}
    {par : ParentMap} (hch : LimitReaches h fd init a b) (hlt : b < 10000)
    (hdfs : depthFirst h (canon init) b fd init 0 [] =
      some (Sum.inr ((c : ℚ) : WithTop ℚ), par)) :
    LimitReaches h fd init a c := by
  induction hch with
  | refl l => exact LimitReaches.step l c c par hlt hdfs (LimitReaches.refl c)
  | step l₁ l₂ l₃ par2 hlt2 hdfs2 htail ih =>
    exact LimitReaches.step l₁ l₂ c par2 hlt2 hdfs2 (ih hlt hdfs)

lemma idaLoop_chain {h : GameMap → ℚ} {fd : ℕ} {init : GameMap} {l₁ l₂ : ℚ}
    (hch : LimitReaches h fd init l₁ l₂) :
    ∀ (fo : ℕ) (r : List Move), idaLoop h fd init fo l₁ = some r →
      ∃ fo2, idaLoop h fd init (fo2 + 1) l₂ = some r := by
  induction hch with
  | refl l =>
    intro fo r hres
    cases fo with
    | zero => cases hres
    | succ fo => exact ⟨fo, hres⟩
  | step l₁ l₂ l₃ par hlt hdfs htail ih =>
    intro fo r hres
    cases fo with
    | zero => cases hres
    | succ fo =>
      simp only [idaLoop] at hres
      rw [if_pos hlt] at hres
      simp only [hdfs] at hres
      rw [if_neg (show ((l₂ : ℚ) : WithTop ℚ) ≠ ⊤ from WithTop.coe_ne_top)] at hres
      rw [WithTop.untop'_coe] at hres
      exact ih fo r hres

lemma idaLoop_total {h : GameMap → ℚ} (Hh : ∀ s, Tenth (h s)) {init : GameMap}
    (hv : ValidBoard init) :
    ∀ (n : ℕ) (lim : ℚ) (z : ℤ), lim * 10 = (z : ℚ) → 100000 ≤ z + n →
      ∃ r, idaLoop h (canonBound init + 1) init (n + 1) lim = some r := by
  intro n
  induction n with
  | zero =>
    intro lim z hz hbound
    have hz' : (100000 : ℤ) ≤ z := by omega
    have hq : (100000 : ℚ) ≤ (z : ℚ) := by exact_mod_cast hz'
    rw [← hz] at hq
    have hge : (10000 : ℚ) ≤ lim := by linarith
    refine ⟨[], ?_⟩
    simp only [idaLoop]
    rw [if_neg (not_lt.mpr hge)]
  | succ n ih =>
    intro lim z hz hbound
    by_cases hlt : lim < 10000
    · have htot := depthFirst_total init h lim (canonBound init + 1) init 0 []
        (parentInv_nil init) (pathOk_init init []) (sameStatics_refl init)
        (keysOk_nil init) ⟨hv.1, rfl, hv.2⟩ (by simp)
      rcases htot with ⟨r0, par2, hres, _, _, _⟩
      cases r0 with
      | inl w =>
        refine ⟨w, ?_⟩
        simp only [idaLoop]
        rw [if_pos hlt]
        simp only [hres]
      | inr v =>
        by_cases hvt : v = ⊤
        · subst hvt
          refine ⟨[], ?_⟩
          simp only [idaLoop]
          rw [if_pos hlt]
          simp only [hres, if_true]
        · lift v to ℚ using hvt with q
          have hTW := depthFirst_inr_tenth h Hh (canon init) lim
            (canonBound init + 1) init 0 [] ((q : ℚ) : WithTop ℚ) par2
            ⟨0, by norm_num⟩ hres
          have hq10 : Tenth q := hTW q rfl
          have hgt : lim < q := by
            have := depthFirst_inr_gt h (canon init) lim (canonBound init + 1)
              init 0 [] ((q : ℚ) : WithTop ℚ) par2 hres
            exact_mod_cast this
          have hgap : lim + 1 / 10 ≤ q := tenth_gap ⟨z, hz⟩ hq10 hgt
          rcases hq10 with ⟨zq, hzq⟩
          have hzlt : z + 1 ≤ zq := by
            have h1 : (lim + 1 / 10) * 10 ≤ q * 10 :=
              mul_le_mul_of_nonneg_right hgap (by norm_num)
            rw [add_mul, hz, hzq] at h1
            have h2 : (z : ℚ) + 1 ≤ (zq : ℚ) := by
              norm_num at h1
              linarith
            exact_mod_cast h2
          rcases ih q zq hzq (by omega) with ⟨r, hr⟩
          refine ⟨r, ?_⟩
          simp only [idaLoop]
          rw [if_pos hlt]
          simp only [hres]
          rw [if_neg (show ((q : ℚ) : WithTop ℚ) ≠ ⊤ from WithTop.coe_ne_top)]
          rw [WithTop.untop'_coe]
          exact hr
    · refine ⟨[], ?_⟩
      simp only [idaLoop]
      rw [if_neg hlt]

lemma idaLoop_empty_char {h : GameMap → ℚ} {init : GameMap} :
    ∀ (fo : ℕ) (lim : ℚ) (r : List Move),
      LimitReaches h (canonBound init + 1) init (h init) lim →
      idaLoop h (canonBound init + 1) init fo lim = some r →
      (r = [] → EmptyReason h (canonBound init + 1) init) ∧
      (r ≠ [] → ∃ l par, LimitReaches h (canonBound init + 1) init (h init) l ∧
        l < 10000 ∧ depthFirst h (canon init) l (canonBound init + 1) init 0 [] =
          some (Sum.inl r, par)) := by
  intro fo
  induction fo with
  | zero => intro lim r hch hres; cases hres
  | succ fo ih =>
    intro lim r hch hres
    simp only [idaLoop] at hres
    by_cases hlt : lim < 10000
    · rw [if_pos hlt] at hres
      cases hdfs : depthFirst h (canon init) lim (canonBound init + 1) init 0 [] with
      | none => rw [hdfs] at hres; cases hres
      | some resPair =>
        rcases resPair with ⟨res, par2⟩
        cases res with
        | inl w =>
          simp only [hdfs, Option.some.injEq] at hres
          subst hres
          constructor
          · intro hrnil
            subst hrnil
            have hspec := depthFirst_ok init h lim (canonBound init + 1) init 0 []
              (parentInv_nil init) (pathOk_init init []) (sameStatics_refl init)
              (Sum.inl []) par2 hdfs
            rcases hspec.2.2 [] rfl with ⟨s, hs, hsol⟩
            simp only [replayMoves, Option.some.injEq] at hs
            rw [hs]
            exact Or.inl hsol
          · intro _
            exact ⟨lim, par2, hch, hlt, hdfs⟩
        | inr v =>
          simp only [hdfs] at hres
          by_cases hvt : v = ⊤
          · rw [if_pos hvt] at hres
            simp only [Option.some.injEq] at hres
            subst hres
            refine ⟨fun _ => ?_, fun hrne => absurd rfl hrne⟩
            refine Or.inr ⟨lim, hch, Or.inr ⟨par2, ?_⟩⟩
            rw [hvt] at hdfs
            exact hdfs
          · rw [if_neg hvt] at hres
            lift v to ℚ using hvt with q
            rw [WithTop.untop'_coe] at hres
            exact ih q r (limitReaches_snoc hch hlt hdfs) hres
    · rw [if_neg hlt] at hres
      simp only [Option.some.injEq] at hres
      subst hres
      refine ⟨fun _ => ?_, fun hrne => absurd rfl hrne⟩
      exact Or.inr ⟨lim, hch, Or.inl (not_lt.mp hlt)⟩

lemma idaLoop_reason_empty {h : GameMap → ℚ} {init : GameMap}
    {fo : ℕ} {r : List Move}
    (hres : idaLoop h (canonBound init + 1) init fo (h init) = some r)
    (hreason : EmptyReason h (canonBound init + 1) init) : r = [] := by
  rcases hreason with hsol | ⟨l, hch, hl⟩
  · cases fo with
    | zero => cases hres
    | succ fo =>
      simp only [idaLoop] at hres
      by_cases hlt : h init < 10000
      · rw [if_pos hlt] at hres
        have hdfs : depthFirst h (canon init) (h init) (canonBound init + 1)
            init 0 [] = some (Sum.inl [], []) := by
          simp only [depthFirst]
          rw [if_neg (show ¬ h init < 0 + h init by simp)]
          rw [if_pos hsol]
          have hrp : reconstructPath ([] : ParentMap) (canon init) (canon init) =
              some [] := by
            unfold reconstructPath
            rw [chaseParent_succ, if_pos rfl]
            rfl
          rw [hrp]
        simp only [hdfs, Option.some.injEq] at hres
        exact hres.symm
      · rw [if_neg hlt] at hres
        simp only [Option.some.injEq] at hres
        exact hres.symm
  · rcases idaLoop_chain hch fo r hres with ⟨fo2, hres2⟩
    rcases hl with hge | ⟨par, hdfs⟩
    · simp only [idaLoop] at hres2
      rw [if_neg (not_lt.mpr hge)] at hres2
      simp only [Option.some.injEq] at hres2
      exact hres2.symm
    · simp only [idaLoop] at hres2
      by_cases hlt : l < 10000
      · rw [if_pos hlt] at hres2
        simp only [hdfs, if_true, Option.some.injEq] at hres2
        exact hres2.symm
      · rw [if_neg hlt] at hres2
        simp only [Option.some.injEq] at hres2
        exact hres2.symm

instance (init : GameMap) : Decidable (ValidBoard init) := by
  unfold ValidBoard; infer_instance

/-- C3 (amended): on valid boards, `solve` with `target_matching_heuristic`
terminates, and its answer is `[]` exactly when the board is already solved,
or a reached limit hits the 10000 ceiling, or a reached limit's depth-first
pass prunes everything to an infinite minimum; otherwise the answer is a
solution found by some pass below the ceiling. -/
theorem c3_termination_and_empty (init : GameMap) (hv : ValidBoard init) :
    ∃ r, idaSolve target_matching_heuristic 100001 (canonBound init + 1) init =
        some r ∧
      (r = [] ↔ EmptyReason target_matching_heuristic (canonBound init + 1) init) ∧
      (r ≠ [] → ∃ l par,
        LimitReaches target_matching_heuristic (canonBound init + 1) init
          (target_matching_heuristic init) l ∧ l < 10000 ∧
        depthFirst target_matching_heuristic (canon init) l (canonBound init + 1)
          init 0 [] = some (Sum.inl r, par)) := by
  rcases target_matching_tenth init with ⟨z, hz⟩
  have hz0 : 0 ≤ z := by
    have h0 : (0 : ℚ) ≤ target_matching_heuristic init * 10 := by
      have := target_matching_nonneg init
      linarith
    rw [hz] at h0
    exact_mod_cast h0
  rcases idaLoop_total target_matching_tenth hv 100000
    (target_matching_heuristic init) z hz (by omega) with ⟨r, hr⟩
  have hchar := idaLoop_empty_char (100000 + 1) (target_matching_heuristic init) r
    (LimitReaches.refl _) hr
  refine ⟨r, hr, ⟨fun hrnil => hchar.1 hrnil, fun hreason =>
    idaLoop_reason_empty hr hreason⟩, fun hrne => hchar.2 hrne⟩

def c3Map : GameMap :=
  { length := 3, width := 3, obstacles := [], targets := [(1, 1)],
    boxes := [(1, 1)], player := (0, 0), explored_states := 0 }

unseal Rat.add Rat.mul Rat.inv Rat.sub in
lemma c3MapDfs :
    depthFirst target_matching_heuristic (canon c3Map)
      (target_matching_heuristic c3Map) (canonBound c3Map + 1) c3Map 0 [] =
      some (Sum.inl [], ([] : ParentMap)) := by
  decide

unseal Rat.add Rat.mul Rat.inv Rat.sub in
/-- C3 (counterexample): on an already-solved valid board, `solve` returns
`[]` although the limit never moves from its sub-ceiling starting value and
the single depth-first pass returns a found solution, not an infinite
minimum — refuting that `[]` occurs exactly at the ceiling or at an infinite
minimum. -/
theorem c3_counterexample :
    idaSolve target_matching_heuristic 100001 (canonBound c3Map + 1) c3Map =
      some [] ∧
    (∀ l, LimitReaches target_matching_heuristic (canonBound c3Map + 1) c3Map
      (target_matching_heuristic c3Map) l → l = target_matching_heuristic c3Map) ∧
    ¬ (10000 ≤ target_matching_heuristic c3Map ∨
      TopPass target_matching_heuristic (canonBound c3Map + 1) c3Map
        (target_matching_heuristic c3Map)) := by
  refine ⟨by decide, ?_, ?_⟩
  · intro l hch
    cases hch with
    | refl => rfl
    | step l₁ l₂ l₃ par hlt hdfs htail =>
      rw [c3MapDfs] at hdfs
      simp at hdfs
  · intro hor
    rcases hor with hge | ⟨par, hdfs⟩
    · revert hge
      decide
    · rw [c3MapDfs] at hdfs
      simp at hdfs

unseal Rat.add Rat.mul Rat.inv Rat.sub in
/-- C3 (witness): the amended theorem applied to a concrete valid board. -/
theorem c3_witness :
    ValidBoard c3Map ∧
    (∃ r, idaSolve target_matching_heuristic 100001 (canonBound c3Map + 1) c3Map =
        some r ∧
      (r = [] ↔ EmptyReason target_matching_heuristic (canonBound c3Map + 1) c3Map) ∧
      (r ≠ [] → ∃ l par,
        LimitReaches target_matching_heuristic (canonBound c3Map + 1) c3Map
          (target_matching_heuristic c3Map) l ∧ l < 10000 ∧
        depthFirst target_matching_heuristic (canon c3Map) l (canonBound c3Map + 1)
          c3Map 0 [] = some (Sum.inl r, par))) :=
  ⟨by decide, c3_termination_and_empty c3Map (by decide)⟩

end Sokoban
